import Mathlib

/-!
Verification of the font-direction-changer browser extension against its
natural-language specification.

The development shallowly embeds the JavaScript sources:
  * `content.js`      - the per-page style injector,
  * `popup.js`        - the popup editor (src/unnamed/part_000),
  * `settings.js`     - the settings manager,
  * `runtime.js`      - the background dispatcher (service worker),
into Lean definitions.  DOM state, the key-value settings store and the
message bus are modelled explicitly; browser built-ins (string methods,
`parseFloat`, URL parsing, timers) are given small executable models.
JavaScript strings are modelled through their character lists so that every
definition evaluates inside the kernel.
-/

/-! ## JavaScript string primitives -/

/-- Whitespace recognised by `String.prototype.trim` (the common subset). -/
def wsChar (c : Char) : Bool :=
  c == ' ' || c == '\t' || c == '\n' || c == '\r' || c == '\u000b' || c == '\u000c'

/-- Model of `str.trim()`. -/
def jsTrim (s : String) : String :=
  ⟨((s.data.dropWhile wsChar).reverse.dropWhile wsChar).reverse⟩

/-- Model of `str.startsWith(p)`. -/
def strStarts (s p : String) : Bool :=
  p.data.isPrefixOf s.data

/-- Helper for substring search over character lists. -/
def containsSub (needle : List Char) : List Char → Bool
  | [] => needle.isEmpty
  | c :: r => needle.isPrefixOf (c :: r) || containsSub needle r

/-- Model of `str.includes(n)`. -/
def strContains (hay needle : String) : Bool :=
  containsSub needle.data hay.data

/-- Replace the first occurrence of `pat` by `rep`, as
`String.prototype.replace` does with a string pattern. -/
def replaceFirstL (pat rep : List Char) : List Char → List Char
  | [] => if pat.isEmpty then rep else []
  | c :: r =>
    if pat.isPrefixOf (c :: r) then rep ++ (c :: r).drop pat.length
    else c :: replaceFirstL pat rep r

/-- Model of `str.replace(pat, rep)` (string pattern: first occurrence only). -/
def replaceFirst (s pat rep : String) : String :=
  ⟨replaceFirstL pat.data rep.data s.data⟩

/-- Model of `str.toUpperCase()` restricted to ASCII (placeholder names). -/
def strUpper (s : String) : String :=
  ⟨s.data.map Char.toUpper⟩

/-! ## JavaScript number primitives

`parseFloat` is modelled over exact rationals: optional sign, decimal
digits with an optional fraction, and an optional decimal exponent; the
longest numeric prefix is parsed and anything after it is ignored, and a
string with no numeric prefix parses to `none` (JavaScript `NaN`).
(`Infinity` and hexadecimal forms are not modelled; no stated property
depends on them.) -/

/-- Numeric value of a digit string. -/
def digitsVal (l : List Char) : ℕ :=
  l.foldl (fun a c => a * 10 + (c.toNat - '0'.toNat)) 0

/-- Optional sign; returns (negative?, rest). -/
def takeSign : List Char → Bool × List Char
  | '-' :: r => (true, r)
  | '+' :: r => (false, r)
  | l => (false, l)

/-- Mantissa: `digits [. digits]` or `. digits`; `none` when no digit occurs. -/
def parseMantissa (l : List Char) : Option (ℚ × List Char) :=
  let intd := l.takeWhile Char.isDigit
  let rest := l.dropWhile Char.isDigit
  match rest with
  | '.' :: r =>
    let frd := r.takeWhile Char.isDigit
    if intd.isEmpty && frd.isEmpty then none
    else some ((digitsVal intd : ℚ) + (digitsVal frd : ℚ) / ((10 : ℚ) ^ frd.length),
               r.dropWhile Char.isDigit)
  | _ => if intd.isEmpty then none else some ((digitsVal intd : ℚ), rest)

/-- Optional exponent part `[eE][+-]?digits`; an `e` without digits is ignored. -/
def parseExpoPart (l : List Char) : ℚ :=
  match l with
  | 'e' :: r | 'E' :: r =>
    let (eneg, r') := takeSign r
    let ed := r'.takeWhile Char.isDigit
    if ed.isEmpty then 1
    else if eneg then 1 / ((10 : ℚ) ^ digitsVal ed)
    else ((10 : ℚ) ^ digitsVal ed)
  | _ => 1

/-- Model of `parseFloat(s)`; `none` stands for `NaN`. -/
def parseFloatQ (s : String) : Option ℚ :=
  let (neg, l) := takeSign s.data
  match parseMantissa l with
  | none => none
  | some (m, rest) =>
    let v := m * parseExpoPart rest
    some (if neg then -v else v)

/-- Model of `parseInt(s)` used only for its `isNaN` test in `loadGoogleFont`:
whether the string starts (after an optional sign) with a decimal digit. -/
def parseIntSucceeds (s : String) : Bool :=
  let (_, l) := takeSign s.data
  !(l.takeWhile Char.isDigit).isEmpty

/-- `Math.round(x)`: round half toward positive infinity. -/
def jsRound (q : ℚ) : ℤ := ⌊q + 1/2⌋

/-- `parseFloat(x.toFixed(2))`: value rounded to two decimals
(ties toward the larger value, as the ECMAScript `toFixed` picks). -/
def toFixed2 (q : ℚ) : ℚ := (⌊q * 100 + 1/2⌋ : ℚ) / 100

/-- JavaScript number-to-string for values with at most two decimals,
as produced when a handler assigns `Math.round(v)` or
`parseFloat(v.toFixed(2))` to an input's `value`. -/
def ratToJsString (q : ℚ) : String :=
  let m : ℤ := ⌊q * 100⌋
  let neg := m < 0
  let a : ℕ := m.natAbs
  let i : ℕ := a / 100
  let f : ℕ := a % 100
  let body :=
    if f = 0 then toString i
    else if f % 10 = 0 then toString i ++ "." ++ toString (f / 10)
    else toString i ++ "." ++ (if f < 10 then "0" ++ toString f else toString f)
  if neg then "-" ++ body else body

/-! ## URL parsing

Modelled external browser API: `new URL(u).hostname`.  The model recognises
`scheme://authority...` URLs, takes the authority up to the first
delimiter, and fails (the constructor throws) when no `://` occurs. -/

/-- Split at the first occurrence of `://`; returns the part after it. -/
def afterSchemeSep : List Char → Option (List Char)
  | [] => none
  | c :: r => if [':', '/', '/'].isPrefixOf (c :: r) then some ((c :: r).drop 3)
              else afterSchemeSep r

/-- Modelled from the external `URL` builtin: the `hostname` of a URL,
`none` when the constructor would throw. -/
def urlHostname (u : String) : Option String :=
  match afterSchemeSep u.data with
  | none => none
  | some rest => some ⟨rest.takeWhile (fun c => !(c == '/' || c == ':' || c == '?' || c == '#'))⟩

/-! ## The settings store (`chrome.storage.sync` contents)

A `SiteSettings` record as written by the popup (`popup.js`,
`saveAndApplySettings`): all seven override fields plus the denormalized
`host`.  The popup always stores strings (input `.value` contents). -/

structure SiteSettings where
  font : String
  direction : String
  fontSize : String
  lineHeight : String
  fontWeight : String
  letterSpacing : String
  wordSpacing : String
  host : String
deriving DecidableEq, Repr

/-- A persisted value: a site record or a global string setting. -/
inductive StoreValue where
  | site (s : SiteSettings)
  | str (v : String)
deriving DecidableEq, Repr

/-- The key-value store, first binding wins on lookup (a well-formed store
has pairwise distinct keys, see `storeKeysNodup`). -/
def Store := List (String × StoreValue)

instance : DecidableEq Store := inferInstanceAs (DecidableEq (List (String × StoreValue)))

/-- `storage.get(k)`. -/
def storeGet (s : Store) (k : String) : Option StoreValue :=
  match s with
  | [] => none
  | (k', v) :: r => if k' = k then some v else storeGet r k

/-- Bind `k` to `v`, replacing an existing binding. -/
def upsertKey (s : Store) (k : String) (v : StoreValue) : Store :=
  match s with
  | [] => [(k, v)]
  | (k', v') :: r => if k' = k then (k, v) :: r else (k', v') :: upsertKey r k v

/-- `storage.set(m)`: merge every binding of `m` into `s`. -/
def storeSet (m s : Store) : Store :=
  match m with
  | [] => s
  | (k, v) :: r => storeSet r (upsertKey s k v)

/-- Well-formedness: the store is a map (no duplicate keys). -/
def storeKeysNodup (s : Store) : Prop := (s.map Prod.fst).Nodup

instance (s : Store) : Decidable (storeKeysNodup s) :=
  inferInstanceAs (Decidable ((s.map Prod.fst).Nodup))

/-! ## Settings manager (`settings.js`): export / import -/

/-- The three reserved global keys (`settings.js`). -/
def globalKeys : List String := ["uiFont", "theme", "extensionLanguage"]

/-- `handleExportSettings`: keep exactly the site records (key containing a
dot) and the three global keys. -/
def exportData (s : Store) : Store :=
  s.filter (fun kv => strContains kv.1 "." || globalKeys.contains kv.1)

/-- Effects the settings page can perform. -/
inductive SettingsEff where
  | setStore (m : Store)
  | statusMsg (text : String)
  | reloadPage
deriving DecidableEq

/-- `displayStatusMessage`: translation lookup with the key itself as
fallback, then `$NAME$` placeholder interpolation (first occurrence each). -/
def displayStatusText (trans : String → Option String) (key : String)
    (placeholders : List (String × String)) : String :=
  placeholders.foldl
    (fun text p => replaceFirst text ("$" ++ strUpper p.1 ++ "$") p.2)
    ((trans key).getD key)

/-- `handleImportSettings`: the outcome of `JSON.parse` is passed in as an
`Except` (`.error m` carries the exception message).  On success the parsed
document is `set` wholesale and the page reloads; on failure a localized
status message with the parse error interpolated is shown and nothing else
happens. -/
def handleImportSettings (trans : String → Option String)
    (parsed : Except String Store) : List SettingsEff :=
  match parsed with
  | .ok m => [.setStore m, .reloadPage]
  | .error emsg => [.statusMsg (displayStatusText trans "importErrorMessage" [("ERROR", emsg)])]

/-- Run the store-affecting part of a settings-page effect list. -/
def applySettingsEffs (effs : List SettingsEff) (s : Store) : Store :=
  match effs with
  | [] => s
  | .setStore m :: r => applySettingsEffs r (storeSet m s)
  | _ :: r => applySettingsEffs r s

/-! ## Popup editor (`popup.js`)

The four custom number inputs and their fixed bounds
(`numberInputConfig` in the source). -/

inductive NumField where
  | fontSizeInput
  | lineHeightInput
  | letterSpacingInput
  | wordSpacingInput
deriving DecidableEq, Repr

structure NumCfg where
  min : ℚ
  max : ℚ
  step : ℚ

/-- `numberInputConfig`. -/
def numberInputConfig : NumField → NumCfg
  | .fontSizeInput => ⟨8, 72, 1⟩
  | .lineHeightInput => ⟨0.8, 3, 0.1⟩
  | .letterSpacingInput => ⟨-5, 10, 0.1⟩
  | .wordSpacingInput => ⟨-10, 30, 0.5⟩

/-- The two clamping ifs of the numeric handlers. -/
def clampCfg (cfg : NumCfg) (v : ℚ) : ℚ :=
  let v1 := if v < cfg.min then cfg.min else v
  if v1 > cfg.max then cfg.max else v1

/-- `Math.round` for the font size, `toFixed(2)` re-parse for the others. -/
def roundForField (f : NumField) (v : ℚ) : ℚ :=
  if f = .fontSizeInput then (jsRound v : ℚ) else toFixed2 v

/-- The `change` (blur/commit) handler of a numeric input: the numeric value
left in the field, `none` when the field is reset to the empty default. -/
def commitNumericInput (f : NumField) (raw : String) : Option ℚ :=
  let t := jsTrim raw
  match parseFloatQ t with
  | none => none
  | some v => if t = "" then none else some (roundForField f (clampCfg (numberInputConfig f) v))

/-- A stepper button click: the numeric value written into the field. -/
def stepperValue (f : NumField) (up : Bool) (raw : String) : ℚ :=
  let cfg := numberInputConfig f
  let t := jsTrim raw
  let base : ℚ := if f = .fontSizeInput then 16 else 0
  let cur :=
    match parseFloatQ t with
    | none => if up then base - cfg.step else base + cfg.step
    | some v => if t = "" then (if up then base - cfg.step else base + cfg.step) else v
  let cur := cur + (if up then cfg.step else -cfg.step)
  roundForField f (clampCfg cfg cur)

/-- The popup controls' current values. -/
structure UIState where
  fontSelect : String
  fontWeightSelect : String
  fontSizeInput : String
  lineHeightInput : String
  letterSpacingInput : String
  wordSpacingInput : String
  rtlActive : Bool
  ltrActive : Bool
deriving DecidableEq, Repr

def UIState.numGet (u : UIState) : NumField → String
  | .fontSizeInput => u.fontSizeInput
  | .lineHeightInput => u.lineHeightInput
  | .letterSpacingInput => u.letterSpacingInput
  | .wordSpacingInput => u.wordSpacingInput

def UIState.numSet (u : UIState) : NumField → String → UIState
  | .fontSizeInput, v => { u with fontSizeInput := v }
  | .lineHeightInput, v => { u with lineHeightInput := v }
  | .letterSpacingInput, v => { u with letterSpacingInput := v }
  | .wordSpacingInput, v => { u with wordSpacingInput := v }

/-- The 7-field override tuple. -/
structure StyleTuple where
  font : String
  direction : String
  fontSize : String
  lineHeight : String
  fontWeight : String
  letterSpacing : String
  wordSpacing : String
deriving DecidableEq, Repr

/-- `getCurrentSelectedDirection`. -/
def getCurrentSelectedDirection (u : UIState) : String :=
  if u.rtlActive then "rtl" else if u.ltrActive then "ltr" else ""

/-- `getCurrentUISettings`: the full tuple gathered from all controls. -/
def getCurrentUISettings (u : UIState) : StyleTuple :=
  { font := u.fontSelect
    direction := getCurrentSelectedDirection u
    fontSize := jsTrim u.fontSizeInput
    lineHeight := jsTrim u.lineHeightInput
    fontWeight := u.fontWeightSelect
    letterSpacing := jsTrim u.letterSpacingInput
    wordSpacing := jsTrim u.wordSpacingInput }

/-- Fonts present in `fontsWithWeightSupport` (every entry's `default` is
the empty string). -/
def fontsWithWeightSupport : List String :=
  ["Vazirmatn", "Noto Sans Arabic", "Cairo", "Rubik", "Baloo Bhaijaan 2",
   "Playpen Sans", "Roboto", "Open Sans", "Inter", "Noto Sans", "Nunito",
   "Playfair Display", "Roboto Slab", "Josefin Sans", "Merriweather",
   "Crimson Text", "Roboto Mono"]

/-- `updateFontWeightSelector`: the value the weight dropdown ends up with. -/
def updateFontWeightSelectorValue (selectedFont currentWeight : String) : String :=
  if fontsWithWeightSupport.contains selectedFont && selectedFont ≠ "" then currentWeight else ""

/-- A user edit to one of the popup controls. -/
inductive EditEvent where
  | stepperClick (f : NumField) (up : Bool)
  | numericInput (f : NumField)
  | numericChange (f : NumField)
  | fontChange
  | weightChange
  | rtlClick
  | ltrClick
  | resetClick
deriving DecidableEq, Repr

/-- The event handlers of `addEventListeners`: each updates the controls and
then recomputes the full tuple that is handed to `saveAndApplySettings`. -/
def handleEdit (e : EditEvent) (u : UIState) : UIState × StyleTuple :=
  match e with
  | .stepperClick f up =>
    let u' := u.numSet f (ratToJsString (stepperValue f up (u.numGet f)))
    (u', getCurrentUISettings u')
  | .numericInput _ => (u, getCurrentUISettings u)
  | .numericChange f =>
    let nv := match commitNumericInput f (u.numGet f) with
              | none => ""
              | some q => ratToJsString q
    let u' := u.numSet f nv
    (u', getCurrentUISettings u')
  | .fontChange =>
    let u' := { u with fontWeightSelect := updateFontWeightSelectorValue u.fontSelect "" }
    (u', getCurrentUISettings u')
  | .weightChange => (u, getCurrentUISettings u)
  | .rtlClick =>
    let nd := if getCurrentSelectedDirection u ≠ "rtl" then "rtl" else ""
    let u' := { u with rtlActive := nd = "rtl", ltrActive := nd = "ltr" }
    (u', { getCurrentUISettings u' with direction := nd })
  | .ltrClick =>
    let nd := if getCurrentSelectedDirection u ≠ "ltr" then "ltr" else ""
    let u' := { u with rtlActive := nd = "rtl", ltrActive := nd = "ltr" }
    (u', { getCurrentUISettings u' with direction := nd })
  | .resetClick =>
    let u' : UIState := ⟨"", "", "", "", "", "", false, false⟩
    (u', ⟨"", "", "", "", "", "", ""⟩)

/-- The active browser tab as the popup sees it. -/
structure TabInfo where
  id : ℕ
  url : Option String
deriving DecidableEq, Repr

/-- Effects of the popup's save path. -/
inductive PopupEff where
  | setSite (key : String) (v : SiteSettings)
  | sendApplyStyles (tabId : ℕ) (v : SiteSettings)
deriving DecidableEq, Repr

/-- The settings object the popup persists: the tuple plus the hostname. -/
def toSiteSettings (t : StyleTuple) (host : String) : SiteSettings :=
  ⟨t.font, t.direction, t.fontSize, t.lineHeight, t.fontWeight,
   t.letterSpacing, t.wordSpacing, host⟩

/-- `saveAndApplySettings`: guards, one store write, one direct push. -/
def saveAndApplySettings (t : StyleTuple) (tab : Option TabInfo) : List PopupEff :=
  match tab with
  | none => []
  | some tb =>
    match tb.url with
    | none => []
    | some url =>
      if url = "" then []
      else if strStarts url "chrome://" || strStarts url "about:" || strStarts url "edge://" then []
      else
        match urlHostname url with
        | none => []
        | some h =>
          let settings := toSiteSettings t h
          .setSite h settings ::
            (if tb.id ≠ 0 then [.sendApplyStyles tb.id settings] else [])

/-! ## Background dispatcher (`runtime.js`): the `tabs.onUpdated` fallback -/

/-- JavaScript truthiness of a stored value. -/
def truthyValue : StoreValue → Bool
  | .site _ => true
  | .str v => v ≠ ""

/-- Reading the seven tuple fields off a stored value (a non-record value
yields `undefined`, i.e. empty, fields). -/
def tupleOfValue : StoreValue → StyleTuple
  | .site s => ⟨s.font, s.direction, s.fontSize, s.lineHeight, s.fontWeight,
                s.letterSpacing, s.wordSpacing⟩
  | .str _ => ⟨"", "", "", "", "", "", ""⟩

/-- The expected-failure marker matched by the dispatcher. -/
def CONNECTION_ERR : String := "Could not establish connection"

/-- Outcome of one `tabs.onUpdated` event in the service worker:
what was sent to the tab, and what was logged. `delivery` is the outcome of
the external `tabs.sendMessage` call (`some m` = rejection with message `m`). -/
structure TabUpdateResult where
  sent : Option StyleTuple
  warnings : List String
  errors : List String
deriving DecidableEq, Repr

/-- The `browser.tabs.onUpdated` listener of the service worker. -/
def onTabUpdated (status : Option String) (url : Option String) (store : Store)
    (delivery : Option String) : TabUpdateResult :=
  if status = some "complete" then
    match url with
    | none => ⟨none, [], []⟩
    | some u =>
      if u = "" then ⟨none, [], []⟩
      else if strStarts u "http" || strStarts u "file" then
        match urlHostname u with
        | none => ⟨none, [], ["[Service Worker] Error in tabs.onUpdated listener"]⟩
        | some h =>
          match storeGet store h with
          | none => ⟨none, [], []⟩
          | some v =>
            if truthyValue v then
              match delivery with
              | none => ⟨some (tupleOfValue v), [], []⟩
              | some msg =>
                ⟨some (tupleOfValue v),
                 if strContains msg CONNECTION_ERR then []
                 else ["[Service Worker] Could not apply styles: " ++ msg],
                 []⟩
            else ⟨none, [], []⟩
      else ⟨none, [], []⟩
  else ⟨none, [], []⟩

/-! ## Style injector state (`content.js`): initial load and the mutation
debounce -/

/-- Truthiness of the 7-field tuple, in the order the source tests it. -/
def tupleTruthy (t : StyleTuple) : Bool :=
  t.font ≠ "" || t.direction ≠ "" || t.fontSize ≠ "" || t.lineHeight ≠ "" ||
  t.fontWeight ≠ "" || t.letterSpacing ≠ "" || t.wordSpacing ≠ ""

def emptyTuple : StyleTuple := ⟨"", "", "", "", "", "", ""⟩

/-- Injector state after the initial store read: the cached
`currentApplied*` fields and whether `applyPageStyles` ran. -/
structure InjectorInit where
  applied : StyleTuple
  didApply : Bool
deriving DecidableEq, Repr

/-- `loadAndApplyInitialStyles`, as a function of the store record for the
page's hostname. -/
def loadAndApplyInitialStyles (rec : Option StoreValue) : InjectorInit :=
  match rec with
  | some v =>
    if truthyValue v && tupleTruthy (tupleOfValue v) then ⟨tupleOfValue v, true⟩
    else ⟨emptyTuple, false⟩
  | none => ⟨emptyTuple, false⟩

/-- The fixed debounce window of `handleMutations`. -/
def DEBOUNCE_MS : ℕ := 300

/-- The debounced mutation observer: given the (ascending) arrival times of
mutation batches and the pending timer deadline, the times at which the
timer callback actually fires.  Each batch clears the pending timer and
arms a new one `DEBOUNCE_MS` later; a pending timer whose deadline has
passed already fired. -/
def debounceRun : List ℕ → Option ℕ → List ℕ
  | [], pending => match pending with | some d => [d] | none => []
  | t :: rest, pending =>
    match pending with
    | some d =>
      if d ≤ t then d :: debounceRun rest (some (t + DEBOUNCE_MS))
      else debounceRun rest (some (t + DEBOUNCE_MS))
    | none => debounceRun rest (some (t + DEBOUNCE_MS))

/-- The timer callback re-applies the cached tuple only when some
`currentApplied*` field is set. -/
def mutationFireApplies (applied : StyleTuple) : Bool := tupleTruthy applied

/-- A burst: each mutation batch arrives within the debounce window of its
predecessor (ascending times). -/
def burstWithin (t : ℕ) : List ℕ → Bool
  | [] => true
  | b :: r => (decide (t ≤ b) && decide (b < t + DEBOUNCE_MS)) && burstWithin b r

/-! ## The page DOM (`content.js`)

Elements carry an id, a tag name, an optional `dir` attribute, and — when
`hasShadow` is set — an attached shadow root.  A shadow root is identified
by `rid`, a stand-in for JavaScript object identity (the `Set` in
`getAllShadowRoots` deduplicates by identity; well-formed pages have
pairwise distinct `rid`s).  The shadow root's injected `<style>` elements
are modelled as `(id, textContent)` pairs living at the root (where
`applyStylesToRoot` always inserts them, with namespaced ids, so the
`querySelector('#...')` lookup is a lookup in this list), and `shadowKids`
are its child elements.  `kids` are the element's light-DOM children. -/

inductive Elem where
  | mk (eid tag : String) (dirAttr : Option String) (rid : ℕ) (hasShadow : Bool)
       (shadowStyles : List (String × String)) (shadowKids : List Elem) (kids : List Elem)

def Elem.eid : Elem → String
  | .mk i _ _ _ _ _ _ _ => i

def Elem.tag : Elem → String
  | .mk _ t _ _ _ _ _ _ => t

def Elem.dirAttr : Elem → Option String
  | .mk _ _ d _ _ _ _ _ => d

def Elem.rid : Elem → ℕ
  | .mk _ _ _ r _ _ _ _ => r

def Elem.hasShadow : Elem → Bool
  | .mk _ _ _ _ h _ _ _ => h

def Elem.shadowStyles : Elem → List (String × String)
  | .mk _ _ _ _ _ ss _ _ => ss

def Elem.shadowKids : Elem → List Elem
  | .mk _ _ _ _ _ _ sk _ => sk

def Elem.kids : Elem → List Elem
  | .mk _ _ _ _ _ _ _ k => k

mutual
/-- One `querySelectorAll("*")` hit: the element followed by its light-DOM
descendants. -/
def qsaAllE : Elem → List Elem
  | .mk i t d r h ss sk k => .mk i t d r h ss sk k :: qsaAll k
/-- `root.querySelectorAll("*")` over a list of child elements: every
descendant element in document order, not crossing shadow boundaries. -/
def qsaAll : List Elem → List Elem
  | [] => []
  | e :: rest => qsaAllE e ++ qsaAll rest
end

mutual
/-- Weight of an element: `1` plus the weight of everything the BFS loop of
`getAllShadowRoots` can push while processing it (the shadow subtree's
`querySelectorAll("*")` results and the light-DOM children). -/
def wtE : Elem → ℕ
  | .mk _ _ _ _ _ _ sk k => 1 + wtQ sk + wtL k
/-- Total weight of `qsaAll l`. -/
def wtQ : List Elem → ℕ
  | [] => 0
  | .mk a b c d e f sk k :: rest => wtE (.mk a b c d e f sk k) + wtQ k + wtQ rest
/-- Total weight of a list of elements. -/
def wtL : List Elem → ℕ
  | [] => 0
  | e :: rest => wtE e + wtL rest
end

mutual
/-- Identities of every shadow root in the tree, at any depth. -/
def allRootRids : Elem → List ℕ
  | .mk _ _ _ rid hs _ sk k =>
    (if hs then rid :: allRootRidsL sk else []) ++ allRootRidsL k
def allRootRidsL : List Elem → List ℕ
  | [] => []
  | e :: rest => allRootRids e ++ allRootRidsL rest
end

mutual
/-- Every element of the tree, light DOM and shadow contents alike. -/
def treeElems : Elem → List Elem
  | .mk i t d r h ss sk k =>
    .mk i t d r h ss sk k :: (treeElemsL sk ++ treeElemsL k)
def treeElemsL : List Elem → List Elem
  | [] => []
  | e :: rest => treeElems e ++ treeElemsL rest
end

/-- The BFS loop of `getAllShadowRoots`: pop the queue's front; an element
with a not-yet-collected shadow root contributes its root and pushes the
root's `querySelectorAll("*")` contents; light-DOM children are always
pushed.  `fuel` only forces termination; `wtL queue` steps always suffice. -/
def bfsLoop : ℕ → List Elem → List ℕ → List ℕ
  | 0, _, acc => acc
  | _ + 1, [], acc => acc
  | fuel + 1, .mk _ _ _ rid hs _ sk k :: rest, acc =>
    if hs then
      if rid ∈ acc then bfsLoop fuel (rest ++ k) acc
      else bfsLoop fuel (rest ++ (qsaAll sk ++ k)) (acc ++ [rid])
    else bfsLoop fuel (rest ++ k) acc

/-- `getAllShadowRoots(root)`, as the list of collected root identities. -/
def getAllShadowRoots (e : Elem) : List ℕ :=
  bfsLoop (wtE e) [e] []

/-- Well-formedness: shadow-root identities are pairwise distinct (they
stand for distinct objects). -/
def ridsNodup (e : Elem) : Prop :=
  ((treeElems e).filterMap
    (fun x => if x.hasShadow then some x.rid else none)).Nodup

instance (e : Elem) : Decidable (ridsNodup e) :=
  inferInstanceAs (Decidable (List.Nodup _))

/-! ### Style-rule synthesis (`applyStylesToRoot`) -/

def STYLE_OVERRIDE_TAG_ID : String := "font-direction-changer-style-override"
def FONT_LINK_TAG_ID : String := "font-direction-changer-font-link"

def sanitizeIdChar (c : Char) : Char :=
  if ('a' ≤ c ∧ c ≤ 'z') ∨ ('0' ≤ c ∧ c ≤ '9') ∨ c = '-' ∨ c = '_' then c else '-'

/-- `.toLowerCase().replace(/[^a-z0-9-_]/g, "-")`. -/
def sanitizeId (s : String) : String :=
  ⟨(s.data.map Char.toLower).map sanitizeIdChar⟩

/-- The style-element id for a shadow root: host id, else host tag, else a
literal, then the fresh random suffix of this `applyStylesToRoot` call. -/
def shadowStyleId (hostId hostTag suffix : String) : String :=
  sanitizeId (STYLE_OVERRIDE_TAG_ID ++ "-" ++
    (if hostId ≠ "" then hostId else if hostTag ≠ "" then hostTag else "shadow") ++
    "-" ++ suffix)

/-- The style-element id used for `document.head`. -/
def documentStyleId : String :=
  sanitizeId (STYLE_OVERRIDE_TAG_ID ++ "-document")

def excludeSelectorsList : List String :=
  ["[class*=\"icon\"]", "[class*=\"fa\"]", "i", ".material-icons",
   ".material-symbols-outlined", "pre", "code", "samp", "kbd"]

def excludeCssSelector : String :=
  (excludeSelectorsList.map (fun s => ":not(" ++ s ++ ")")).foldl (· ++ ·) ""

def textAlignSelectors : List String :=
  ["body", ":host", "div", "p", "section", "article", "main", "header",
   "footer", "nav", "aside", "h1", "h2", "h3", "h4", "h5", "h6", "li", "ul",
   "ol", "td", "th", "label", "input", "textarea"]

def targetedTextAlignSelector : String :=
  String.intercalate ", "
    (textAlignSelectors.map
      (fun sel => sel ++ ":not([style*=\"text-align:center\"]):not([align=\"center\"])"))

def baseElementStyles (t : StyleTuple) : String :=
  (if t.font ≠ "" then "font-family: \"" ++ t.font ++ "\", Tahoma, sans-serif !important;" else "") ++
  (if t.fontWeight ≠ "" then "font-weight: " ++ t.fontWeight ++ " !important;" else "") ++
  (if t.fontSize ≠ "" then "font-size: " ++ t.fontSize ++ "px !important;" else "") ++
  (if t.lineHeight ≠ "" then "line-height: " ++ t.lineHeight ++ " !important;" else "") ++
  (if t.letterSpacing ≠ "" then "letter-spacing: " ++ t.letterSpacing ++ "px !important;" else "") ++
  (if t.wordSpacing ≠ "" then "word-spacing: " ++ t.wordSpacing ++ "px !important;" else "")

def formElementFontStyles (t : StyleTuple) : String :=
  (if t.font ≠ "" then "font-family: \"" ++ t.font ++ "\", Tahoma, sans-serif !important;" else "") ++
  (if t.fontWeight ≠ "" then "font-weight: " ++ t.fontWeight ++ " !important;" else "")

/-- The `cssRules` string synthesized by `applyStylesToRoot`; `isHead` marks
the `rootNode === document.head` case with its extra `body` rule. -/
def buildCssRules (isHead : Bool) (t : StyleTuple) : String :=
  (if baseElementStyles t ≠ "" then
    " :host " ++ excludeCssSelector ++ ", * " ++ excludeCssSelector ++
      " \x7b " ++ baseElementStyles t ++ " \x7d " ++
    (if isHead then
      " body " ++ excludeCssSelector ++ " \x7b " ++ baseElementStyles t ++ " \x7d "
     else "")
   else "") ++
  (if formElementFontStyles t ≠ "" then
    " input:not([type=\"button\"]):not([type=\"submit\"]):not([type=\"reset\"]):not([type=\"image\"]), textarea, select \x7b "
      ++ formElementFontStyles t ++ " \x7d "
   else "") ++
  (if t.direction = "rtl" ∨ t.direction = "ltr" then
    " :host, * \x7b direction: " ++ t.direction ++ " !important; \x7d " ++
    " " ++ targetedTextAlignSelector ++ " \x7b text-align: " ++
      (if t.direction = "rtl" then "right" else "left") ++ " !important; \x7d "
   else "")

/-- Replace the first style element carrying `sid` (the
`textContent !== cssRules` guard only skips a no-op assignment). -/
def setFirstContent : List (String × String) → String → String → List (String × String)
  | [], _, _ => []
  | p :: r, sid, css => if p.1 = sid then (p.1, css) :: r else p :: setFirstContent r sid css

/-- Remove the first style/link element carrying `sid`. -/
def removeFirstId : List (String × String) → String → List (String × String)
  | [], _ => []
  | p :: r, sid => if p.1 = sid then r else p :: removeFirstId r sid

/-- The style-element maintenance of `applyStylesToRoot`: non-empty rules
are written into the element found under `sid` (inserting a fresh element
at the front when the lookup fails); empty rules remove the element. -/
def updateStyles (styles : List (String × String)) (sid css : String) :
    List (String × String) :=
  if css ≠ "" then
    if styles.any (fun p => p.1 == sid) then setFirstContent styles sid css
    else (sid, css) :: styles
  else removeFirstId styles sid

/-! ### Remote font loading (`loadGoogleFont`) -/

def systemFonts : List String := ["Tahoma", "Arial", "Times New Roman", "Georgia"]

def variableFontsFullRange : String → Option String
  | "Vazirmatn" => some "100..900"
  | "Noto Sans Arabic" => some "100..900"
  | "Montserrat" => some "100..900"
  | "Cairo" => some "200..1000"
  | "Nunito" => some "200..1000"
  | "Tajawal" => some "200..900"
  | "Open Sans" => some "300..800"
  | "Changa" => some "200..800"
  | _ => none

def specificWeightsFonts : String → Option String
  | "Roboto" => some "100;300;400;500;700;900"
  | "Lato" => some "100;300;400;700;900"
  | "Almarai" => some "300;400;700;800"
  | _ => none

def spaceToPlus (s : String) : String :=
  ⟨s.data.map (fun c => if c = ' ' then '+' else c)⟩

/-- The Google-Fonts stylesheet URL built by `loadGoogleFont`. -/
def googleFontUrl (fontName fontWeight : String) : String :=
  let base := "https://fonts.googleapis.com/css2?family=" ++ spaceToPlus fontName
  let weightParam :=
    if fontWeight ≠ "" ∧ jsTrim fontWeight ≠ "" then
      match variableFontsFullRange fontName with
      | some rng => ":wght@" ++ rng
      | none =>
        match specificWeightsFonts fontName with
        | some ws => ":wght@" ++ ws
        | none => if parseIntSucceeds fontWeight then ":wght@" ++ fontWeight else ""
    else ""
  let url := base ++ weightParam
  url ++ (if strContains url "?" then "&" else "?") ++ "display=swap"

/-- `loadGoogleFont` on the head's link elements: the previous font link is
always removed; a non-system, non-empty font gets exactly one fresh link.
(The asynchronous session-flag effects on load/error are external.) -/
def loadGoogleFont (fontName fontWeight : String) (links : List (String × String)) :
    List (String × String) :=
  let links' := removeFirstId links FONT_LINK_TAG_ID
  if fontName = "" then links'
  else if systemFonts.contains fontName then links'
  else links' ++ [(FONT_LINK_TAG_ID, googleFontUrl fontName fontWeight)]

/-! ### Whole-page application (`applyPageStyles`) -/

/-- The whole page: `document.head`'s injected style/link elements, the
`dir` attributes of `<html>` and `<body>`, and the element tree. -/
structure PageDoc where
  headStyles : List (String × String)
  headLinks : List (String × String)
  htmlDir : Option String
  bodyDir : Option String
  root : Elem

mutual
/-- `applyStylesToRoot` over every discovered shadow root: roots whose
identity was collected receive the rules under a fresh suffixed id. -/
def applyShadowIn (ids : List ℕ) (css suffix : String) : Elem → Elem
  | .mk i tg d rid hs ss sk k =>
    .mk i tg d rid hs
      (if hs ∧ rid ∈ ids then updateStyles ss (shadowStyleId i tg suffix) css else ss)
      (applyShadowInL ids css suffix sk) (applyShadowInL ids css suffix k)
def applyShadowInL (ids : List ℕ) (css suffix : String) : List Elem → List Elem
  | [] => []
  | e :: rest => applyShadowIn ids css suffix e :: applyShadowInL ids css suffix rest
end

mutual
/-- The `dir`-attribute pass on shadow hosts: every host of a discovered
root gets the attribute set (or removed, when `dir` is `none`). -/
def setHostDirs (ids : List ℕ) (dir : Option String) : Elem → Elem
  | .mk i tg d rid hs ss sk k =>
    .mk i tg (if hs ∧ rid ∈ ids then dir else d) rid hs ss
      (setHostDirsL ids dir sk) (setHostDirsL ids dir k)
def setHostDirsL (ids : List ℕ) (dir : Option String) : List Elem → List Elem
  | [] => []
  | e :: rest => setHostDirs ids dir e :: setHostDirsL ids dir rest
end

/-- `applyPageStyles`: font link, `document.head` rules, per-shadow-root
rules, and `dir` attributes on `<html>`, `<body>` and every shadow host.
`suffix` stands for the `Math.random()` suffix drawn during this pass (each
pass draws fresh ones; ids are only ever compared within one root, so one
suffix per pass loses no generality).  The source recomputes
`getAllShadowRoots` for the attribute pass; style injection attaches no new
shadow roots, so the same identities are found. -/
def applyPageStyles (t : StyleTuple) (suffix : String) (d : PageDoc) : PageDoc :=
  { headStyles := updateStyles d.headStyles documentStyleId (buildCssRules true t)
    headLinks := loadGoogleFont t.font t.fontWeight d.headLinks
    htmlDir := if t.direction ≠ "" then some t.direction else none
    bodyDir := if t.direction ≠ "" then some t.direction else none
    root := setHostDirs (getAllShadowRoots d.root)
      (if t.direction ≠ "" then some t.direction else none)
      (applyShadowIn (getAllShadowRoots d.root) (buildCssRules false t) suffix d.root) }

mutual
/-- Checker for C3's conclusion: every reachable shadow host carries `dir`
and every reachable shadow root holds a style element whose text contains
`needle` (contents under `hasShadow = false` are not part of the page). -/
def shadowsDirOk (needle dir : String) : Elem → Bool
  | .mk _ _ d _ hs ss sk k =>
    (if hs then (d == some dir) && ss.any (fun p => strContains p.2 needle)
              && shadowsDirOkL needle dir sk
     else true)
      && shadowsDirOkL needle dir k
def shadowsDirOkL (needle dir : String) : List Elem → Bool
  | [] => true
  | e :: rest => shadowsDirOk needle dir e && shadowsDirOkL needle dir rest
end

/-- Loop invariant of `getAllShadowRoots` over the page tree rooted at `g`
(`popped` is the ghost list of already-processed elements): everything seen
comes from the tree, processed elements have their children
enqueued-or-processed and their shadow roots collected, and every collected
root has its shadow contents enqueued-or-processed. -/
def BfsInv (g : Elem) (queue : List Elem) (acc : List ℕ) (popped : List Elem) : Prop :=
  (∀ x ∈ queue, x ∈ treeElems g) ∧
  (∀ x ∈ popped, x ∈ treeElems g) ∧
  (∀ x ∈ popped, ∀ y ∈ x.kids, y ∈ queue ∨ y ∈ popped) ∧
  (∀ x ∈ popped, x.hasShadow = true → x.rid ∈ acc) ∧
  (∀ r ∈ acc, ∃ x, x ∈ popped ∧ x ∈ treeElems g ∧ x.hasShadow = true ∧ x.rid = r ∧
      ∀ y ∈ qsaAll x.shadowKids, y ∈ queue ∨ y ∈ popped)

mutual
/-- Total number of injected style elements across all shadow roots. -/
def totalShadowStyleCount : Elem → ℕ
  | .mk _ _ _ _ _ ss sk k =>
    ss.length + totalShadowStyleCountL sk + totalShadowStyleCountL k
def totalShadowStyleCountL : List Elem → ℕ
  | [] => 0
  | e :: rest => totalShadowStyleCount e + totalShadowStyleCountL rest
end

/-! ## Concrete sample data (used by witnesses) -/

def siteRecSample : SiteSettings :=
  ⟨"Vazirmatn", "rtl", "18", "", "", "", "", "example.com"⟩

def storeSample : Store :=
  [("example.com", .site siteRecSample),
   ("news.b.org", .site ⟨"", "ltr", "", "1.5", "", "", "", "news.b.org"⟩),
   ("theme", .str "dark"),
   ("uiFont", .str "Vazirmatn"),
   ("extensionLanguage", .str "en"),
   ("fontChangerAllSettingsBackup", .str "old-backup")]

def tabSample : TabInfo := ⟨7, some "https://example.com/page"⟩

def uiSample999 : UIState := ⟨"", "", "999", "", "", "", false, false⟩

def uiSampleFont : UIState := ⟨"Cairo", "700", " 18 ", "1.5", "", "", true, false⟩

def s999 : SiteSettings := ⟨"", "", "999", "", "", "", "", "example.com"⟩

/-- A page with a single shadow root on a `<div>`. -/
def shadowDocSample : PageDoc :=
  { headStyles := [], headLinks := [], htmlDir := none, bodyDir := none,
    root := .mk "" "HTML" none 0 false [] [] [.mk "" "DIV" none 1 true [] [] []] }

/-- A page with a shadow root nested inside another shadow root. -/
def nestedShadowDocSample : PageDoc :=
  { headStyles := [], headLinks := [], htmlDir := none, bodyDir := none,
    root := .mk "" "HTML" none 0 false [] []
      [.mk "outer" "DIV" none 1 true []
        [.mk "inner" "SPAN" none 2 true [] [] []] []] }

def rtlOnlyTuple : StyleTuple := ⟨"", "rtl", "", "", "", "", ""⟩

/-! ### Store lemmas -/

theorem storeGet_cons_self (k : String) (v : StoreValue) (r : Store) :
    storeGet ((k, v) :: r) k = some v := by
  simp [storeGet]

theorem storeGet_upsertKey_of_get_eq (s : Store) (k : String) (v : StoreValue)
    (h : storeGet s k = some v) : ∀ k', storeGet (upsertKey s k v) k' = storeGet s k' := by
  induction s with
  | nil => simp [storeGet] at h
  | cons hd tl ih =>
    obtain ⟨k₀, v₀⟩ := hd
    intro k'
    by_cases hk : k₀ = k
    · subst hk
      rw [storeGet_cons_self] at h
      have hv : v₀ = v := by injection h
      subst hv
      simp [upsertKey]
    · simp only [storeGet, if_neg hk] at h
      simp only [upsertKey, if_neg hk]
      by_cases hk' : k₀ = k'
      · simp [storeGet, hk']
      · simp [storeGet, hk', ih h k']

theorem storeGet_mem_of_get_cons (k₀ : String) (v₀ : StoreValue) (r : Store)
    (k : String) (v : StoreValue) (hne : k ≠ k₀)
    (h : storeGet r k = some v) : storeGet ((k₀, v₀) :: r) k = some v := by
  simp only [storeGet, if_neg (Ne.symm hne)]
  exact h

theorem mem_keys_of_storeGet_some (s : Store) (k : String) (v : StoreValue)
    (h : storeGet s k = some v) : k ∈ s.map Prod.fst := by
  induction s with
  | nil => simp [storeGet] at h
  | cons hd tl ih =>
    obtain ⟨k₀, v₀⟩ := hd
    by_cases hk : k₀ = k
    · simp [hk]
    · simp only [storeGet, if_neg hk] at h
      simpa using Or.inr (ih h)

theorem storeSet_subset_get (m : Store) :
    ∀ s : Store, (m.map Prod.fst).Nodup →
    (∀ k v, storeGet m k = some v → storeGet s k = some v) →
    ∀ k', storeGet (storeSet m s) k' = storeGet s k' := by
  induction m with
  | nil => intro s _ _ k'; simp [storeSet]
  | cons hd tl ih =>
    obtain ⟨k₀, v₀⟩ := hd
    intro s hnd hsub k'
    have hk₀ : storeGet s k₀ = some v₀ := by
      apply hsub; exact storeGet_cons_self k₀ v₀ tl
    have hpoint := storeGet_upsertKey_of_get_eq s k₀ v₀ hk₀
    have hndc : (k₀ :: tl.map Prod.fst).Nodup := by simpa using hnd
    have hnd' : (tl.map Prod.fst).Nodup := (List.nodup_cons.mp hndc).2
    have hk₀notin : k₀ ∉ tl.map Prod.fst := (List.nodup_cons.mp hndc).1
    have hsub' : ∀ k v, storeGet tl k = some v → storeGet (upsertKey s k₀ v₀) k = some v := by
      intro k v hget
      have hkne : k ≠ k₀ := by
        intro he
        subst he
        exact hk₀notin (mem_keys_of_storeGet_some tl k v hget)
      rw [hpoint k]
      exact hsub k v (storeGet_mem_of_get_cons k₀ v₀ tl k v hkne hget)
    calc storeGet (storeSet tl (upsertKey s k₀ v₀)) k'
        = storeGet (upsertKey s k₀ v₀) k' := ih (upsertKey s k₀ v₀) hnd' hsub' k'
      _ = storeGet s k' := hpoint k'

theorem storeGet_none_of_not_mem (s : Store) (k : String)
    (h : k ∉ s.map Prod.fst) : storeGet s k = none := by
  induction s with
  | nil => simp [storeGet]
  | cons hd tl ih =>
    obtain ⟨k₀, v₀⟩ := hd
    simp only [List.map_cons, List.mem_cons, not_or] at h
    simp only [storeGet, if_neg (fun he : k₀ = k => h.1 he.symm)]
    exact ih h.2

theorem storeGet_filter (p : String × StoreValue → Bool) (s : Store)
    (hnd : storeKeysNodup s) (k : String) (v : StoreValue)
    (h : storeGet (s.filter p) k = some v) : storeGet s k = some v := by
  induction s with
  | nil => simp [storeGet] at h
  | cons hd tl ih =>
    obtain ⟨k₀, v₀⟩ := hd
    have hndc : (k₀ :: tl.map Prod.fst).Nodup := by simpa [storeKeysNodup] using hnd
    have hnd' : storeKeysNodup tl := (List.nodup_cons.mp hndc).2
    have hk₀notin : k₀ ∉ tl.map Prod.fst := (List.nodup_cons.mp hndc).1
    rw [List.filter_cons] at h
    by_cases hp : p (k₀, v₀)
    · rw [if_pos hp] at h
      by_cases hk : k₀ = k
      · subst hk
        rw [storeGet_cons_self] at h
        rw [storeGet_cons_self]
        exact h
      · simp only [storeGet, if_neg hk] at h ⊢
        exact ih hnd' h
    · rw [if_neg hp] at h
      by_cases hk : k₀ = k
      · subst hk
        have hnone : storeGet (tl.filter p) k₀ = none := by
          apply storeGet_none_of_not_mem
          intro hmem
          exact hk₀notin (((List.filter_sublist tl).map Prod.fst).subset hmem)
        rw [hnone] at h
        exact absurd h (by simp)
      · simp only [storeGet, if_neg hk]
        exact ih hnd' h

/-- Export filter keeps store keys a sub(multi)set: keys of the filtered
store are a sublist of the original keys. -/
theorem exportData_keys_sublist (s : Store) :
    ((exportData s).map Prod.fst).Sublist (s.map Prod.fst) :=
  (List.filter_sublist s).map Prod.fst

/-! ### Generic helper lemmas -/

theorem isPrefixOf_append_left (a : List Char) :
    ∀ (b l : List Char), (a ++ b).isPrefixOf l = true → a.isPrefixOf l = true := by
  induction a with
  | nil => intro b l _; simp [List.isPrefixOf]
  | cons c cs ih =>
    intro b l h
    cases l with
    | nil => simp [List.isPrefixOf] at h
    | cons d ds =>
      simp only [List.cons_append, List.isPrefixOf, Bool.and_eq_true] at h ⊢
      exact ⟨h.1, ih b ds h.2⟩

theorem clampCfg_bounds (cfg : NumCfg) (hcfg : cfg.min ≤ cfg.max) (v : ℚ) :
    cfg.min ≤ clampCfg cfg v ∧ clampCfg cfg v ≤ cfg.max := by
  unfold clampCfg
  by_cases h1 : v < cfg.min
  · simp only [if_pos h1]
    by_cases h2 : cfg.min > cfg.max
    · simp [if_pos h2, hcfg, le_refl]
    · simp [if_neg h2, le_refl]
      linarith
  · simp only [if_neg h1]
    push_neg at h1
    by_cases h2 : v > cfg.max
    · simp [if_pos h2, hcfg, le_refl]
    · simp [if_neg h2, h1]
      linarith

theorem floor_half_bounds (a b : ℤ) (q : ℚ) (h1 : (a : ℚ) ≤ q) (h2 : q ≤ b) :
    (a : ℚ) ≤ ((⌊q + 1/2⌋ : ℤ) : ℚ) ∧ ((⌊q + 1/2⌋ : ℤ) : ℚ) ≤ b := by
  constructor
  · have : a ≤ ⌊q + 1/2⌋ := by
      rw [Int.le_floor]
      linarith
    exact_mod_cast this
  · have hb : ⌊(b : ℚ) + 1/2⌋ = b := by
      rw [Int.floor_eq_iff]
      constructor
      · linarith
      · norm_num
    have : ⌊q + 1/2⌋ ≤ b := hb ▸ Int.floor_mono (by linarith)
    exact_mod_cast this


/-! ### C6 / C7: settings export-import -/

/-- C6: exporting the store and importing the produced document with no
intervening edits reconstructs an equivalent store — every key (in
particular every site record and the three global keys) still maps to the
same value after the round trip. -/
theorem c6_export_import_roundtrip (trans : String → Option String) (s : Store)
    (k : String) (h : storeKeysNodup s) :
    storeGet (applySettingsEffs (handleImportSettings trans (.ok (exportData s))) s) k
      = storeGet s k := by
  have hnd : ((exportData s).map Prod.fst).Nodup :=
    List.Nodup.sublist (exportData_keys_sublist s) h
  have hsub : ∀ k v, storeGet (exportData s) k = some v → storeGet s k = some v :=
    fun k v hv => storeGet_filter _ s h k v hv
  simpa [handleImportSettings, applySettingsEffs] using
    storeSet_subset_get (exportData s) s hnd hsub k

theorem c6_export_import_roundtrip_witness :
    storeKeysNodup storeSample ∧
    storeGet (applySettingsEffs
        (handleImportSettings (fun _ => none) (.ok (exportData storeSample)))
        storeSample) "example.com"
      = storeGet storeSample "example.com" :=
  ⟨by decide, c6_export_import_roundtrip (fun _ => none) storeSample "example.com" (by decide)⟩

/-- C7: an import whose document fails to parse is aborted — the store is
left unmodified, no set is issued, and the parse error message is
interpolated into the localized status string shown to the user. -/
theorem c7_import_parse_failure (trans : String → Option String) (emsg : String)
    (s : Store) :
    applySettingsEffs (handleImportSettings trans (.error emsg)) s = s ∧
    (∀ m, SettingsEff.setStore m ∉ handleImportSettings trans (.error emsg)) ∧
    SettingsEff.statusMsg (displayStatusText trans "importErrorMessage" [("ERROR", emsg)])
      ∈ handleImportSettings trans (.error emsg) := by
  refine ⟨rfl, fun m hm => ?_, by simp [handleImportSettings]⟩
  simp [handleImportSettings] at hm


/-! ### C8: debounce coalescing -/

theorem debounceRun_burst_len :
    ∀ (ts : List ℕ) (t : ℕ), burstWithin t ts = true →
    (debounceRun ts (some (t + DEBOUNCE_MS))).length = 1 := by
  intro ts
  induction ts with
  | nil => intro t _; simp [debounceRun]
  | cons t1 rest ih =>
    intro t hch
    simp only [burstWithin, Bool.and_eq_true, decide_eq_true_eq] at hch
    have hlt : ¬ (t + DEBOUNCE_MS ≤ t1) := by omega
    simp only [debounceRun, if_neg hlt]
    exact ih t1 hch.2

/-- C8: a burst of `N ≥ 1` DOM mutation batches, each arriving within the
debounce window of its predecessor, fires the timer callback exactly once
(each batch cancels the pending timer and arms a new one), and the single
fire re-applies the cached tuple. -/
theorem c8_debounce_coalesces (t0 : ℕ) (ts : List ℕ) (ap : StyleTuple)
    (hburst : burstWithin t0 ts = true)
    (hap : tupleTruthy ap = true) :
    (debounceRun (t0 :: ts) none).length = 1 ∧ mutationFireApplies ap = true := by
  constructor
  · have hstep : debounceRun (t0 :: ts) none = debounceRun ts (some (t0 + DEBOUNCE_MS)) := rfl
    rw [hstep]
    exact debounceRun_burst_len ts t0 hburst
  · exact hap

theorem c8_debounce_coalesces_witness :
    burstWithin 0 [100, 200] = true ∧
    (debounceRun (0 :: [100, 200]) none).length = 1 ∧
    mutationFireApplies ⟨"Vazirmatn", "", "", "", "", "", ""⟩ = true :=
  ⟨by decide, c8_debounce_coalesces 0 [100, 200] ⟨"Vazirmatn", "", "", "", "", "", ""⟩
      (by decide) (by decide)⟩

/-! ### C9: empty record behaves like absence -/

/-- C9: a stored record whose seven override fields are all empty is treated
by the injector's initial load exactly like the absence of a record: nothing
is applied, the cached state is the empty tuple, and a later mutation-timer
fire does not re-apply. -/
theorem c9_empty_record_like_absence (s : SiteSettings)
    (h : tupleOfValue (.site s) = emptyTuple) :
    loadAndApplyInitialStyles (some (.site s)) = loadAndApplyInitialStyles none ∧
    (loadAndApplyInitialStyles (some (.site s))).didApply = false ∧
    mutationFireApplies (loadAndApplyInitialStyles (some (.site s))).applied = false := by
  have hf : tupleTruthy (tupleOfValue (.site s)) = false := by
    rw [h]; decide
  have hload : loadAndApplyInitialStyles (some (.site s)) = ⟨emptyTuple, false⟩ := by
    simp only [loadAndApplyInitialStyles, hf, Bool.and_false]
    rfl
  refine ⟨?_, ?_, ?_⟩
  · rw [hload]; rfl
  · rw [hload]
  · rw [hload]; decide

theorem c9_empty_record_like_absence_witness :
    tupleOfValue (.site ⟨"", "", "", "", "", "", "", "example.com"⟩) = emptyTuple ∧
    loadAndApplyInitialStyles (some (.site ⟨"", "", "", "", "", "", "", "example.com"⟩))
      = loadAndApplyInitialStyles none :=
  ⟨by decide,
   (c9_empty_record_like_absence ⟨"", "", "", "", "", "", "", "example.com"⟩ (by decide)).1⟩

/-! ### C10: popup save guards -/

/-- C10: when the active tab is absent, has no URL (or an empty one), has a
browser-internal URL (`chrome://`, `about:`, `edge://`), or has a URL with
no parsable hostname, `saveAndApplySettings` performs no store write and
sends no message. -/
theorem c10_popup_guard_no_effects (t : StyleTuple) (tab : Option TabInfo)
    (h : tab = none ∨ ∃ tb, tab = some tb ∧
         (tb.url = none ∨ ∃ u, tb.url = some u ∧
           (u = "" ∨ strStarts u "chrome://" = true ∨ strStarts u "about:" = true ∨
            strStarts u "edge://" = true ∨ urlHostname u = none))) :
    saveAndApplySettings t tab = [] := by
  rcases h with rfl | ⟨tb, rfl, h⟩
  · rfl
  · obtain ⟨tid, turl⟩ := tb
    rcases h with hu | ⟨u, hu, h⟩
    · simp at hu
      simp [saveAndApplySettings, hu]
    · simp at hu
      subst hu
      rcases h with h0 | h1 | h2 | h3 | h4
      · simp [saveAndApplySettings, h0]
      · by_cases h0 : u = ""
        · simp [saveAndApplySettings, h0]
        · simp [saveAndApplySettings, h0, h1]
      · by_cases h0 : u = ""
        · simp [saveAndApplySettings, h0]
        · simp [saveAndApplySettings, h0, h2]
      · by_cases h0 : u = ""
        · simp [saveAndApplySettings, h0]
        · simp [saveAndApplySettings, h0, h3]
      · by_cases h0 : u = ""
        · simp [saveAndApplySettings, h0]
        · by_cases hb : (strStarts u "chrome://" || strStarts u "about:" || strStarts u "edge://") = true
          · simp [saveAndApplySettings, h0, hb]
          · simp [saveAndApplySettings, h0, hb, h4]

theorem c10_popup_guard_no_effects_witness :
    strStarts "chrome://extensions" "chrome://" = true ∧
    saveAndApplySettings emptyTuple (some ⟨1, some "chrome://extensions"⟩) = [] :=
  ⟨by decide,
   c10_popup_guard_no_effects emptyTuple (some ⟨1, some "chrome://extensions"⟩)
     (Or.inr ⟨⟨1, some "chrome://extensions"⟩, rfl,
       Or.inr ⟨"chrome://extensions", rfl, Or.inr (Or.inl (by decide))⟩⟩)⟩

/-! ### C5: dispatcher fallback push on navigation completion -/

theorem strStarts_append (u p q : String) (h : strStarts u (p ++ q) = true) :
    strStarts u p = true := by
  unfold strStarts at h ⊢
  apply isPrefixOf_append_left p.data q.data u.data
  have hd : (p ++ q).data = p.data ++ q.data := by
    cases p
    cases q
    rfl
  rw [hd] at h
  exact h

/-- C5: on a load-complete navigation to an http(s)/file URL whose hostname
has a record in the store, the dispatcher sends an `applyStyles` command
carrying that record's tuple; a delivery failure never surfaces as an error,
and an expected "no receiver" failure is not even logged as a warning. -/
theorem c5_dispatcher_pushes_on_load_complete (u h : String) (store : Store)
    (v : StoreValue) (delivery : Option String)
    (hscheme : strStarts u "http://" = true ∨ strStarts u "https://" = true ∨
               strStarts u "file://" = true)
    (hhost : urlHostname u = some h)
    (hget : storeGet store h = some v)
    (htruth : truthyValue v = true) :
    (onTabUpdated (some "complete") (some u) store delivery).sent = some (tupleOfValue v) ∧
    (onTabUpdated (some "complete") (some u) store delivery).errors = [] ∧
    (∀ m, delivery = some m → strContains m CONNECTION_ERR = true →
      (onTabUpdated (some "complete") (some u) store delivery).warnings = []) := by
  have hne : u ≠ "" := by
    intro he
    subst he
    rcases hscheme with h' | h' | h' <;> revert h' <;> decide
  have hguard : (strStarts u "http" || strStarts u "file") = true := by
    rcases hscheme with h' | h' | h'
    · have := strStarts_append u "http" "://" (by
        have he : ("http" ++ "://" : String) = "http://" := by decide
        rw [he]; exact h')
      simp [this]
    · have := strStarts_append u "http" "s://" (by
        have he : ("http" ++ "s://" : String) = "https://" := by decide
        rw [he]; exact h')
      simp [this]
    · have := strStarts_append u "file" "://" (by
        have he : ("file" ++ "://" : String) = "file://" := by decide
        rw [he]; exact h')
      simp [this]
  have hres : ∀ d, onTabUpdated (some "complete") (some u) store d =
      (match d with
       | none => ⟨some (tupleOfValue v), [], []⟩
       | some msg =>
         ⟨some (tupleOfValue v),
          if strContains msg CONNECTION_ERR then []
          else ["[Service Worker] Could not apply styles: " ++ msg], []⟩) := by
    intro d
    unfold onTabUpdated
    simp [hne, hguard, hhost, hget, htruth]
  refine ⟨?_, ?_, ?_⟩
  · rw [hres delivery]; cases delivery <;> rfl
  · rw [hres delivery]; cases delivery <;> rfl
  · intro m hm hc
    subst hm
    rw [hres (some m)]
    simp [hc]

theorem c5_dispatcher_pushes_on_load_complete_witness :
    urlHostname "https://example.com/page" = some "example.com" ∧
    (onTabUpdated (some "complete") (some "https://example.com/page") storeSample
        (some "Could not establish connection. Receiving end does not exist.")).sent
      = some (tupleOfValue (.site siteRecSample)) ∧
    (onTabUpdated (some "complete") (some "https://example.com/page") storeSample
        (some "Could not establish connection. Receiving end does not exist.")).warnings = [] :=
  ⟨by decide,
   (c5_dispatcher_pushes_on_load_complete "https://example.com/page" "example.com"
      storeSample (.site siteRecSample)
      (some "Could not establish connection. Receiving end does not exist.")
      (Or.inr (Or.inl (by decide))) (by decide) (by decide) (by decide)).1,
   (c5_dispatcher_pushes_on_load_complete "https://example.com/page" "example.com"
      storeSample (.site siteRecSample)
      (some "Could not establish connection. Receiving end does not exist.")
      (Or.inr (Or.inl (by decide))) (by decide) (by decide) (by decide)).2.2
     "Could not establish connection. Receiving end does not exist." rfl (by decide)⟩


/-! ### C2: numeric input clamping -/

theorem numberInputConfig_min_le_max (f : NumField) :
    (numberInputConfig f).min ≤ (numberInputConfig f).max := by
  cases f <;> norm_num [numberInputConfig]

theorem roundForField_bounds (f : NumField) (v : ℚ)
    (h1 : (numberInputConfig f).min ≤ v) (h2 : v ≤ (numberInputConfig f).max) :
    (numberInputConfig f).min ≤ roundForField f v ∧
      roundForField f v ≤ (numberInputConfig f).max := by
  cases f
  case fontSizeInput =>
    simp only [numberInputConfig] at h1 h2 ⊢
    rw [roundForField, if_pos rfl, jsRound]
    obtain ⟨ha, hb⟩ := floor_half_bounds 8 72 v (by norm_num; linarith) (by norm_num; linarith)
    constructor
    · exact_mod_cast ha
    · exact_mod_cast hb
  case lineHeightInput =>
    simp only [numberInputConfig] at h1 h2 ⊢
    rw [roundForField, if_neg (by decide), toFixed2]
    norm_num at h1 h2 ⊢
    obtain ⟨ha, hb⟩ := floor_half_bounds 80 300 (v * 100) (by norm_num; linarith) (by norm_num; linarith)
    constructor
    · push_cast at ha ⊢
      linarith
    · push_cast at hb ⊢
      linarith
  case letterSpacingInput =>
    simp only [numberInputConfig] at h1 h2 ⊢
    rw [roundForField, if_neg (by decide), toFixed2]
    obtain ⟨ha, hb⟩ := floor_half_bounds (-500) 1000 (v * 100) (by norm_num; linarith) (by norm_num; linarith)
    constructor
    · push_cast at ha ⊢
      linarith
    · push_cast at hb ⊢
      linarith
  case wordSpacingInput =>
    simp only [numberInputConfig] at h1 h2 ⊢
    rw [roundForField, if_neg (by decide), toFixed2]
    obtain ⟨ha, hb⟩ := floor_half_bounds (-1000) 3000 (v * 100) (by norm_num; linarith) (by norm_num; linarith)
    constructor
    · push_cast at ha ⊢
      linarith
    · push_cast at hb ⊢
      linarith

theorem floor_add_half_int (n : ℤ) : ⌊(n : ℚ) + 1/2⌋ = n := by
  rw [Int.floor_eq_iff]
  constructor
  · linarith
  · norm_num

theorem toFixed2_exact (n : ℤ) (q : ℚ) (h : q * 100 = (n : ℚ)) : toFixed2 q = q := by
  unfold toFixed2
  rw [h, floor_add_half_int]
  rw [div_eq_iff (by norm_num : (100 : ℚ) ≠ 0)]
  linarith

/-- Rounding is the identity on values exactly representable at the field's
precision (integers for the font size, hundredths for the others). -/
theorem roundForField_fix (f : NumField) (q : ℚ)
    (h1 : f = .fontSizeInput → ∃ n : ℤ, q = (n : ℚ))
    (h2 : f ≠ .fontSizeInput → ∃ n : ℤ, q * 100 = (n : ℚ)) :
    roundForField f q = q := by
  by_cases hf : f = .fontSizeInput
  · obtain ⟨n, rfl⟩ := h1 hf
    rw [roundForField, if_pos hf, jsRound, floor_add_half_int]
  · obtain ⟨n, hn⟩ := h2 hf
    rw [roundForField, if_neg hf]
    exact toFixed2_exact n q hn

/-- Each field's bounds are exactly representable, so rounding fixes them. -/
theorem roundForField_boundary (f : NumField) :
    roundForField f (numberInputConfig f).min = (numberInputConfig f).min ∧
    roundForField f (numberInputConfig f).max = (numberInputConfig f).max := by
  cases f
  case fontSizeInput =>
    constructor
    · exact roundForField_fix _ _ (fun _ => ⟨8, by norm_num [numberInputConfig]⟩)
        (fun h => absurd rfl h)
    · exact roundForField_fix _ _ (fun _ => ⟨72, by norm_num [numberInputConfig]⟩)
        (fun h => absurd rfl h)
  case lineHeightInput =>
    constructor
    · exact roundForField_fix _ _ (fun h => absurd h (by decide))
        (fun _ => ⟨80, by norm_num [numberInputConfig]⟩)
    · exact roundForField_fix _ _ (fun h => absurd h (by decide))
        (fun _ => ⟨300, by norm_num [numberInputConfig]⟩)
  case letterSpacingInput =>
    constructor
    · exact roundForField_fix _ _ (fun h => absurd h (by decide))
        (fun _ => ⟨-500, by norm_num [numberInputConfig]⟩)
    · exact roundForField_fix _ _ (fun h => absurd h (by decide))
        (fun _ => ⟨1000, by norm_num [numberInputConfig]⟩)
  case wordSpacingInput =>
    constructor
    · exact roundForField_fix _ _ (fun h => absurd h (by decide))
        (fun _ => ⟨-1000, by norm_num [numberInputConfig]⟩)
    · exact roundForField_fix _ _ (fun h => absurd h (by decide))
        (fun _ => ⟨3000, by norm_num [numberInputConfig]⟩)

theorem clampCfg_below (cfg : NumCfg) (hc : cfg.min ≤ cfg.max) (v : ℚ)
    (h : v < cfg.min) : clampCfg cfg v = cfg.min := by
  unfold clampCfg
  rw [if_pos h, if_neg (not_lt.mpr hc)]

theorem clampCfg_above (cfg : NumCfg) (hc : cfg.min ≤ cfg.max) (v : ℚ)
    (h : cfg.max < v) : clampCfg cfg v = cfg.max := by
  unfold clampCfg
  rw [if_neg (not_lt.mpr (hc.trans h.le)), if_pos h]

/-- C2 (amended): the blur/commit (`change`) handler commits a non-numeric
or empty input as empty, and commits a numeric input to the clamped,
rounded value: always within the field's `[min, max]` bounds (an integer
for the font size, two-decimal precision for the others), landing exactly
on the minimum for an input below it and exactly on the maximum for an
input above it; stepper clicks likewise only store values within
`[min, max]`.  (Only the per-keystroke `input` handler is exempt: see the
counterexample.) -/
theorem c2_commit_and_stepper_clamp (f : NumField) (raw : String) (up : Bool) :
    ((parseFloatQ (jsTrim raw) = none ∨ jsTrim raw = "") →
      commitNumericInput f raw = none) ∧
    (∀ v : ℚ, parseFloatQ (jsTrim raw) = some v → jsTrim raw ≠ "" →
      ∃ w : ℚ, commitNumericInput f raw = some w ∧
        (numberInputConfig f).min ≤ w ∧ w ≤ (numberInputConfig f).max ∧
        (v < (numberInputConfig f).min → w = (numberInputConfig f).min) ∧
        ((numberInputConfig f).max < v → w = (numberInputConfig f).max) ∧
        (f = .fontSizeInput → ∃ n : ℤ, w = (n : ℚ)) ∧
        (f ≠ .fontSizeInput → ∃ n : ℤ, w * 100 = (n : ℚ))) ∧
    ((numberInputConfig f).min ≤ stepperValue f up raw ∧
      stepperValue f up raw ≤ (numberInputConfig f).max) := by
  have hminmax := numberInputConfig_min_le_max f
  have hprec : ∀ w : ℚ, (f = .fontSizeInput → ∃ n : ℤ, roundForField f w = (n : ℚ)) ∧
      (f ≠ .fontSizeInput → ∃ n : ℤ, roundForField f w * 100 = (n : ℚ)) := by
    intro w
    constructor
    · intro hf
      exact ⟨jsRound w, by rw [roundForField, if_pos hf]⟩
    · intro hf
      refine ⟨⌊w * 100 + 1/2⌋, ?_⟩
      rw [roundForField, if_neg hf, toFixed2]
      field_simp
  have hclamp := fun w => clampCfg_bounds (numberInputConfig f) hminmax w
  refine ⟨?_, ?_, ?_⟩
  · intro h
    rcases h with h | h
    · simp [commitNumericInput, h]
    · cases hp : parseFloatQ (jsTrim raw) with
      | none => simp [commitNumericInput, hp]
      | some v =>
        simp [commitNumericInput, hp, h]
        cases parseFloatQ "" <;> rfl
  · intro v hv hne
    refine ⟨roundForField f (clampCfg (numberInputConfig f) v),
      by simp [commitNumericInput, hv, hne], ?_, ?_, ?_, ?_, (hprec _).1, (hprec _).2⟩
    · exact (roundForField_bounds f _ (hclamp v).1 (hclamp v).2).1
    · exact (roundForField_bounds f _ (hclamp v).1 (hclamp v).2).2
    · intro hlt
      rw [clampCfg_below _ hminmax v hlt]
      exact (roundForField_boundary f).1
    · intro hgt
      rw [clampCfg_above _ hminmax v hgt]
      exact (roundForField_boundary f).2
  · rw [stepperValue]
    constructor
    · exact (roundForField_bounds f _ (hclamp _).1 (hclamp _).2).1
    · exact (roundForField_bounds f _ (hclamp _).1 (hclamp _).2).2

/-- Witness for the amended C2: committing "999" in the font size field
stores exactly the upper bound 72. -/
theorem c2_commit_and_stepper_clamp_witness :
    ∃ w : ℚ, commitNumericInput .fontSizeInput "999" = some w ∧ w = 72 := by
  have ht : jsTrim "999" = "999" := by decide
  have hp : parseFloatQ (jsTrim "999") = some 999 := by
    rw [ht]
    have h1 : parseFloatQ "999" = some (((999 : ℕ) : ℚ) * 1) := rfl
    rw [h1]
    norm_num
  have hne : jsTrim "999" ≠ "" := by decide
  obtain ⟨w, hw, _, _, _, habove, _, _⟩ :=
    (c2_commit_and_stepper_clamp .fontSizeInput "999" true).2.1 999 hp hne
  exact ⟨w, hw, habove (by norm_num [numberInputConfig])⟩

/-- C2 counterexample: the claim as stated fails — on a per-keystroke
`input` event the popup stores the raw trimmed text; with "999" in the font
size field a full tuple whose `fontSize` is the non-empty, out-of-range
value "999" is written to the store (and pushed to the tab). -/
theorem c2_input_event_stores_out_of_range :
    saveAndApplySettings (handleEdit (.numericInput .fontSizeInput) uiSample999).2
        (some ⟨1, some "https://example.com/"⟩)
      = [.setSite "example.com" s999, .sendApplyStyles 1 s999] ∧
    s999.fontSize = "999" ∧ s999.fontSize ≠ "" ∧
    parseFloatQ s999.fontSize = some 999 ∧
    ¬ ((999 : ℚ) ≤ (numberInputConfig .fontSizeInput).max) := by
  refine ⟨by decide, by decide, by decide, ?_, by norm_num [numberInputConfig]⟩
  have h1 : parseFloatQ "999" = some (((999 : ℕ) : ℚ) * 1) := rfl
  show parseFloatQ "999" = some 999
  rw [h1]
  norm_num

/-! ### C4: every edit recomputes and persists the full tuple -/

/-- C4: on any user edit, the handler recomputes the full 7-field tuple from
all controls, writes it (with the hostname) to the store in a single set
call under the active tab's hostname key, and then pushes it to the active
tab as an `applyStyles` command. -/
theorem c4_edit_recomputes_and_persists (e : EditEvent) (u : UIState)
    (tid : ℕ) (url h : String)
    (hne : url ≠ "")
    (hc : strStarts url "chrome://" = false) (ha : strStarts url "about:" = false)
    (hed : strStarts url "edge://" = false)
    (hhost : urlHostname url = some h) (hid : tid ≠ 0) :
    saveAndApplySettings (handleEdit e u).2 (some ⟨tid, some url⟩) =
      [.setSite h (toSiteSettings (handleEdit e u).2 h),
       .sendApplyStyles tid (toSiteSettings (handleEdit e u).2 h)] ∧
    (handleEdit e u).2 = getCurrentUISettings (handleEdit e u).1 := by
  constructor
  · simp [saveAndApplySettings, hne, hc, ha, hed, hhost, hid]
  · cases e with
    | stepperClick f up => rfl
    | numericInput f => rfl
    | numericChange f => rfl
    | fontChange => rfl
    | weightChange => rfl
    | rtlClick =>
      cases hr : u.rtlActive <;> cases hl : u.ltrActive <;>
        simp [handleEdit, getCurrentUISettings, getCurrentSelectedDirection, hr, hl]
    | ltrClick =>
      cases hr : u.rtlActive <;> cases hl : u.ltrActive <;>
        simp [handleEdit, getCurrentUISettings, getCurrentSelectedDirection, hr, hl]
    | resetClick => rfl

theorem c4_edit_recomputes_and_persists_witness :
    urlHostname "https://example.com/page" = some "example.com" ∧
    (saveAndApplySettings (handleEdit .fontChange uiSampleFont).2
        (some ⟨7, some "https://example.com/page"⟩) =
      [.setSite "example.com" (toSiteSettings (handleEdit .fontChange uiSampleFont).2 "example.com"),
       .sendApplyStyles 7 (toSiteSettings (handleEdit .fontChange uiSampleFont).2 "example.com")] ∧
     (handleEdit .fontChange uiSampleFont).2
       = getCurrentUISettings (handleEdit .fontChange uiSampleFont).1) :=
  ⟨by decide,
   c4_edit_recomputes_and_persists .fontChange uiSampleFont 7 "https://example.com/page"
     "example.com" (by decide) (by decide) (by decide) (by decide) (by decide) (by decide)⟩


/-! ### C1: repeated application and the shadow-root style id -/

/-- C1 evaluation: applying the same tuple twice to a page with one shadow
root leaves TWO injected style elements in the shadow root (the second
pass's fresh random suffix makes the id lookup miss the first element),
while a single application leaves one; the `document.head` style element,
whose id is stable, does not duplicate, and no font link accumulates.  This
contradicts the claimed idempotence. -/
theorem c1_second_apply_duplicates_shadow_style :
    totalShadowStyleCount (applyPageStyles rtlOnlyTuple "bbbbbbb"
        (applyPageStyles rtlOnlyTuple "aaaaaaa" shadowDocSample)).root = 2 ∧
    totalShadowStyleCount (applyPageStyles rtlOnlyTuple "aaaaaaa" shadowDocSample).root = 1 ∧
    (applyPageStyles rtlOnlyTuple "bbbbbbb"
        (applyPageStyles rtlOnlyTuple "aaaaaaa" shadowDocSample)).headStyles.length = 1 ∧
    (applyPageStyles rtlOnlyTuple "aaaaaaa" shadowDocSample).headStyles.length = 1 ∧
    (applyPageStyles rtlOnlyTuple "bbbbbbb"
        (applyPageStyles rtlOnlyTuple "aaaaaaa" shadowDocSample)).headLinks.length = 0 := by
  refine ⟨?_, ?_, ?_, ?_, ?_⟩ <;> decide


/-! ### C3: tree and weight lemmas for the shadow-root traversal -/

theorem wtE_pos (e : Elem) : 1 ≤ wtE e := by
  cases e
  simp only [wtE]
  omega

theorem wtL_append (a b : List Elem) : wtL (a ++ b) = wtL a + wtL b := by
  induction a with
  | nil => simp [wtL]
  | cons e r ih =>
    rw [List.cons_append]
    simp only [wtL]
    rw [ih]
    omega

theorem qsaAll_append (a b : List Elem) : qsaAll (a ++ b) = qsaAll a ++ qsaAll b := by
  induction a with
  | nil => simp [qsaAll]
  | cons e r ih =>
    simp only [List.cons_append, qsaAll, List.append_eq, ih, List.append_assoc]

theorem wtL_qsaAll : ∀ (n : ℕ) (l : List Elem), wtL l ≤ n → wtL (qsaAll l) = wtQ l := by
  intro n
  induction n with
  | zero =>
    intro l h
    cases l with
    | nil => simp [qsaAll, wtL, wtQ]
    | cons e r =>
      exfalso
      have := wtE_pos e
      simp only [wtL] at h
      omega
  | succ n ih =>
    intro l h
    cases l with
    | nil => simp [qsaAll, wtL, wtQ]
    | cons e r =>
      obtain ⟨i, t, d, rid, hs, ss, sk, k⟩ := e
      simp only [wtL, wtE] at h
      simp only [qsaAll, qsaAllE, List.append_eq, List.cons_append, wtL_append, wtL, wtQ, wtE]
      rw [ih k (by omega), ih r (by omega)]
      omega

theorem wtL_qsaAll' (l : List Elem) : wtL (qsaAll l) = wtQ l :=
  wtL_qsaAll (wtL l) l le_rfl

theorem wtE_le_of_mem : ∀ (l : List Elem) (x : Elem), x ∈ l → wtE x ≤ wtL l := by
  intro l
  induction l with
  | nil => intro x hx; simp at hx
  | cons e r ih =>
    intro x hx
    rcases List.mem_cons.mp hx with rfl | hx
    · simp only [wtL]; omega
    · have := ih x hx
      simp only [wtL]
      omega

theorem wtE_le_of_mem_qsa (l : List Elem) (x : Elem) (hx : x ∈ qsaAll l) :
    wtE x ≤ wtQ l := by
  have := wtE_le_of_mem (qsaAll l) x hx
  rwa [wtL_qsaAll'] at this

theorem wtL_le_wtQ : ∀ l : List Elem, wtL l ≤ wtQ l := by
  intro l
  induction l with
  | nil => simp [wtL, wtQ]
  | cons e r ih =>
    obtain ⟨i, t, d, rid, hs, ss, sk, k⟩ := e
    simp only [wtL, wtQ]
    omega

theorem mem_qsaAll_self : ∀ (l : List Elem) (x : Elem), x ∈ l → x ∈ qsaAll l := by
  intro l
  induction l with
  | nil => intro x hx; simp at hx
  | cons e r ih =>
    intro x hx
    rcases List.mem_cons.mp hx with rfl | hx
    · obtain ⟨i, t, d, rid, hs, ss, sk, k⟩ := x
      simp [qsaAll, qsaAllE]
    · simp only [qsaAll, List.mem_append]
      exact Or.inr (ih x hx)

theorem treeElems_self (e : Elem) : e ∈ treeElems e := by
  obtain ⟨i, t, d, rid, hs, ss, sk, k⟩ := e
  simp [treeElems]

theorem mem_treeElemsL_iff (l : List Elem) (y : Elem) :
    y ∈ treeElemsL l ↔ ∃ z ∈ l, y ∈ treeElems z := by
  induction l with
  | nil => simp [treeElemsL]
  | cons e r ih =>
    simp only [treeElemsL, List.mem_append, ih, List.mem_cons]
    constructor
    · rintro (hy | ⟨z, hz, hyz⟩)
      · exact ⟨e, Or.inl rfl, hy⟩
      · exact ⟨z, Or.inr hz, hyz⟩
    · rintro ⟨z, rfl | hz, hyz⟩
      · exact Or.inl hyz
      · exact Or.inr ⟨z, hz, hyz⟩

theorem mem_treeElemsL_of_mem (l : List Elem) (x : Elem) (hx : x ∈ l) :
    x ∈ treeElemsL l :=
  (mem_treeElemsL_iff l x).mpr ⟨x, hx, treeElems_self x⟩

theorem qsa_sub_treeElemsL : ∀ (n : ℕ) (l : List Elem), wtL l ≤ n →
    ∀ y ∈ qsaAll l, y ∈ treeElemsL l := by
  intro n
  induction n with
  | zero =>
    intro l h y hy
    cases l with
    | nil => simp [qsaAll] at hy
    | cons e r =>
      exfalso
      have := wtE_pos e
      simp only [wtL] at h
      omega
  | succ n ih =>
    intro l h y hy
    cases l with
    | nil => simp [qsaAll] at hy
    | cons e r =>
      obtain ⟨i, t, d, rid, hs, ss, sk, k⟩ := e
      simp only [wtL, wtE] at h
      simp only [qsaAll, qsaAllE, List.cons_append, List.mem_cons, List.mem_append] at hy
      simp only [treeElemsL, List.mem_append]
      rcases hy with rfl | hy | hy
      · exact Or.inl (treeElems_self _)
      · left
        have hk := ih k (by omega) y hy
        simp only [treeElems, List.mem_cons, List.mem_append]
        exact Or.inr (Or.inr hk)
      · exact Or.inr (ih r (by omega) y hy)

theorem elemTree_closure : ∀ (n : ℕ) (g : Elem), wtE g ≤ n →
    ∀ x ∈ treeElems g,
      (∀ y ∈ x.kids, y ∈ treeElems g) ∧
      (∀ y ∈ qsaAll x.shadowKids, y ∈ treeElems g) := by
  intro n
  induction n with
  | zero =>
    intro g h
    exfalso
    have := wtE_pos g
    omega
  | succ n ih =>
    intro g h x hx
    obtain ⟨i, t, d, rid, hs, ss, sk, k⟩ := g
    simp only [wtE] at h
    simp only [treeElems, List.mem_cons, List.mem_append] at hx
    rcases hx with rfl | hx | hx
    · constructor
      · intro y hy
        simp only [Elem.kids] at hy
        simp only [treeElems, List.mem_cons, List.mem_append]
        exact Or.inr (Or.inr (mem_treeElemsL_of_mem k y hy))
      · intro y hy
        simp only [Elem.shadowKids] at hy
        simp only [treeElems, List.mem_cons, List.mem_append]
        exact Or.inr (Or.inl (qsa_sub_treeElemsL (wtL sk) sk le_rfl y hy))
    · obtain ⟨z, hz, hxz⟩ := (mem_treeElemsL_iff sk x).mp hx
      have hwz : wtE z ≤ n := by
        have h1 := wtE_le_of_mem sk z hz
        have h2 := wtL_le_wtQ sk
        omega
      have hcl := ih z hwz x hxz
      constructor
      · intro y hy
        have := hcl.1 y hy
        simp only [treeElems, List.mem_cons, List.mem_append]
        exact Or.inr (Or.inl ((mem_treeElemsL_iff sk y).mpr ⟨z, hz, this⟩))
      · intro y hy
        have := hcl.2 y hy
        simp only [treeElems, List.mem_cons, List.mem_append]
        exact Or.inr (Or.inl ((mem_treeElemsL_iff sk y).mpr ⟨z, hz, this⟩))
    · obtain ⟨z, hz, hxz⟩ := (mem_treeElemsL_iff k x).mp hx
      have hwz : wtE z ≤ n := by
        have h1 := wtE_le_of_mem k z hz
        omega
      have hcl := ih z hwz x hxz
      constructor
      · intro y hy
        have := hcl.1 y hy
        simp only [treeElems, List.mem_cons, List.mem_append]
        exact Or.inr (Or.inr ((mem_treeElemsL_iff k y).mpr ⟨z, hz, this⟩))
      · intro y hy
        have := hcl.2 y hy
        simp only [treeElems, List.mem_cons, List.mem_append]
        exact Or.inr (Or.inr ((mem_treeElemsL_iff k y).mpr ⟨z, hz, this⟩))

theorem bfsInv_pop_children (g : Elem) (i tg : String) (d : Option String) (rid : ℕ)
    (hs : Bool) (ss : List (String × String)) (sk k rest : List Elem)
    (acc : List ℕ) (pop : List Elem)
    (hinv : BfsInv g (Elem.mk i tg d rid hs ss sk k :: rest) acc pop)
    (hrid : hs = true → rid ∈ acc) :
    BfsInv g (rest ++ k) acc (Elem.mk i tg d rid hs ss sk k :: pop) := by
  obtain ⟨inv1, inv2, inv3, inv4, inv5⟩ := hinv
  have hxg : Elem.mk i tg d rid hs ss sk k ∈ treeElems g := inv1 _ (by simp)
  have hclosure := elemTree_closure (wtE g) g le_rfl _ hxg
  refine ⟨?_, ?_, ?_, ?_, ?_⟩
  · intro x hx
    rcases List.mem_append.mp hx with hx | hx
    · exact inv1 x (by simp [hx])
    · exact hclosure.1 x (by simpa [Elem.kids] using hx)
  · intro x hx
    rcases List.mem_cons.mp hx with rfl | hx
    · exact hxg
    · exact inv2 x hx
  · intro x hx y hy
    rcases List.mem_cons.mp hx with rfl | hx
    · left
      exact List.mem_append.mpr (Or.inr (by simpa [Elem.kids] using hy))
    · rcases inv3 x hx y hy with hyq | hyp
      · rcases List.mem_cons.mp hyq with rfl | hyq
        · right; exact List.mem_cons_self _ _
        · left; exact List.mem_append.mpr (Or.inl hyq)
      · right; exact List.mem_cons.mpr (Or.inr hyp)
  · intro x hx hxs
    rcases List.mem_cons.mp hx with rfl | hx
    · exact hrid (by simpa [Elem.hasShadow] using hxs)
    · exact inv4 x hx hxs
  · intro r hr
    obtain ⟨x, hxpop, hxtree, hxs, hxr, hcov⟩ := inv5 r hr
    refine ⟨x, List.mem_cons.mpr (Or.inr hxpop), hxtree, hxs, hxr, ?_⟩
    intro y hy
    rcases hcov y hy with hyq | hyp
    · rcases List.mem_cons.mp hyq with rfl | hyq
      · right; exact List.mem_cons_self _ _
      · left; exact List.mem_append.mpr (Or.inl hyq)
    · right; exact List.mem_cons.mpr (Or.inr hyp)

theorem bfsInv_pop_newroot (g : Elem) (i tg : String) (d : Option String) (rid : ℕ)
    (hs : Bool) (ss : List (String × String)) (sk k rest : List Elem)
    (acc : List ℕ) (pop : List Elem)
    (hinv : BfsInv g (Elem.mk i tg d rid hs ss sk k :: rest) acc pop)
    (hhs : hs = true) :
    BfsInv g (rest ++ (qsaAll sk ++ k)) (acc ++ [rid])
      (Elem.mk i tg d rid hs ss sk k :: pop) := by
  obtain ⟨inv1, inv2, inv3, inv4, inv5⟩ := hinv
  have hxg : Elem.mk i tg d rid hs ss sk k ∈ treeElems g := inv1 _ (by simp)
  have hclosure := elemTree_closure (wtE g) g le_rfl _ hxg
  refine ⟨?_, ?_, ?_, ?_, ?_⟩
  · intro x hx
    rcases List.mem_append.mp hx with hx | hx
    · exact inv1 x (by simp [hx])
    · rcases List.mem_append.mp hx with hx | hx
      · exact hclosure.2 x (by simpa [Elem.shadowKids] using hx)
      · exact hclosure.1 x (by simpa [Elem.kids] using hx)
  · intro x hx
    rcases List.mem_cons.mp hx with rfl | hx
    · exact hxg
    · exact inv2 x hx
  · intro x hx y hy
    rcases List.mem_cons.mp hx with rfl | hx
    · left
      exact List.mem_append.mpr (Or.inr (List.mem_append.mpr
        (Or.inr (by simpa [Elem.kids] using hy))))
    · rcases inv3 x hx y hy with hyq | hyp
      · rcases List.mem_cons.mp hyq with rfl | hyq
        · right; exact List.mem_cons_self _ _
        · left; exact List.mem_append.mpr (Or.inl hyq)
      · right; exact List.mem_cons.mpr (Or.inr hyp)
  · intro x hx hxs
    rcases List.mem_cons.mp hx with rfl | hx
    · exact List.mem_append.mpr (Or.inr (List.mem_singleton.mpr rfl))
    · exact List.mem_append.mpr (Or.inl (inv4 x hx hxs))
  · intro r hr
    rcases List.mem_append.mp hr with hr | hr
    · obtain ⟨x, hxpop, hxtree, hxs, hxr, hcov⟩ := inv5 r hr
      refine ⟨x, List.mem_cons.mpr (Or.inr hxpop), hxtree, hxs, hxr, ?_⟩
      intro y hy
      rcases hcov y hy with hyq | hyp
      · rcases List.mem_cons.mp hyq with rfl | hyq
        · right; exact List.mem_cons_self _ _
        · left; exact List.mem_append.mpr (Or.inl hyq)
      · right; exact List.mem_cons.mpr (Or.inr hyp)
    · have hreq : r = rid := by simpa using hr
      subst hreq
      refine ⟨Elem.mk i tg d r hs ss sk k, List.mem_cons_self _ _, hxg,
        by simpa [Elem.hasShadow] using hhs, rfl, ?_⟩
      intro y hy
      left
      exact List.mem_append.mpr (Or.inr (List.mem_append.mpr
        (Or.inl (by simpa [Elem.shadowKids] using hy))))

theorem bfsLoop_inv (g : Elem) :
    ∀ (fuel : ℕ) (queue : List Elem) (acc : List ℕ) (pop : List Elem),
    wtL queue ≤ fuel → BfsInv g queue acc pop →
    ∃ pf, (∀ x, (x ∈ queue ∨ x ∈ pop) → x ∈ pf) ∧
          (∀ r ∈ acc, r ∈ bfsLoop fuel queue acc) ∧
          BfsInv g [] (bfsLoop fuel queue acc) pf := by
  intro fuel
  induction fuel with
  | zero =>
    intro queue acc pop hf hinv
    have hq : queue = [] := by
      cases queue with
      | nil => rfl
      | cons e r =>
        exfalso
        have := wtE_pos e
        simp only [wtL] at hf
        omega
    subst hq
    refine ⟨pop, ?_, ?_, ?_⟩
    · rintro x (hx | hx)
      · simp at hx
      · exact hx
    · intro r hr
      simpa [bfsLoop] using hr
    · simpa [bfsLoop] using hinv
  | succ fuel ih =>
    intro queue acc pop hf hinv
    cases queue with
    | nil =>
      refine ⟨pop, ?_, ?_, ?_⟩
      · rintro x (hx | hx)
        · simp at hx
        · exact hx
      · intro r hr
        simpa [bfsLoop] using hr
      · simpa [bfsLoop] using hinv
    | cons e rest =>
      obtain ⟨i, tg, d, rid, hs, ss, sk, k⟩ := e
      have hwts : wtL (Elem.mk i tg d rid hs ss sk k :: rest)
          = 1 + wtQ sk + wtL k + wtL rest := by
        simp only [wtL, wtE]
      cases hs with
      | false =>
        have hstep : bfsLoop (fuel+1) (Elem.mk i tg d rid false ss sk k :: rest) acc
            = bfsLoop fuel (rest ++ k) acc := by
          simp [bfsLoop]
        have hinv' := bfsInv_pop_children g i tg d rid false ss sk k rest acc pop hinv
          (by intro hc; exact absurd hc (by simp))
        have hwq : wtL (rest ++ k) ≤ fuel := by
          rw [wtL_append]
          rw [hwts] at hf
          omega
        obtain ⟨pf, hpf, hacc, hfinal⟩ :=
          ih (rest ++ k) acc (Elem.mk i tg d rid false ss sk k :: pop) hwq hinv'
        refine ⟨pf, ?_, ?_, ?_⟩
        · rintro x (hx | hx)
          · rcases List.mem_cons.mp hx with rfl | hx
            · exact hpf _ (Or.inr (List.mem_cons_self _ _))
            · exact hpf _ (Or.inl (List.mem_append.mpr (Or.inl hx)))
          · exact hpf _ (Or.inr (List.mem_cons.mpr (Or.inr hx)))
        · intro r hr
          rw [hstep]
          exact hacc r hr
        · rw [hstep]
          exact hfinal
      | true =>
        by_cases hmem : rid ∈ acc
        · have hstep : bfsLoop (fuel+1) (Elem.mk i tg d rid true ss sk k :: rest) acc
              = bfsLoop fuel (rest ++ k) acc := by
            simp [bfsLoop, hmem]
          have hinv' := bfsInv_pop_children g i tg d rid true ss sk k rest acc pop hinv
            (fun _ => hmem)
          have hwq : wtL (rest ++ k) ≤ fuel := by
            rw [wtL_append]
            rw [hwts] at hf
            omega
          obtain ⟨pf, hpf, hacc, hfinal⟩ :=
            ih (rest ++ k) acc (Elem.mk i tg d rid true ss sk k :: pop) hwq hinv'
          refine ⟨pf, ?_, ?_, ?_⟩
          · rintro x (hx | hx)
            · rcases List.mem_cons.mp hx with rfl | hx
              · exact hpf _ (Or.inr (List.mem_cons_self _ _))
              · exact hpf _ (Or.inl (List.mem_append.mpr (Or.inl hx)))
            · exact hpf _ (Or.inr (List.mem_cons.mpr (Or.inr hx)))
          · intro r hr
            rw [hstep]
            exact hacc r hr
          · rw [hstep]
            exact hfinal
        · have hstep : bfsLoop (fuel+1) (Elem.mk i tg d rid true ss sk k :: rest) acc
              = bfsLoop fuel (rest ++ (qsaAll sk ++ k)) (acc ++ [rid]) := by
            simp [bfsLoop, hmem]
          have hinv' := bfsInv_pop_newroot g i tg d rid true ss sk k rest acc pop hinv rfl
          have hwq : wtL (rest ++ (qsaAll sk ++ k)) ≤ fuel := by
            rw [wtL_append, wtL_append, wtL_qsaAll']
            rw [hwts] at hf
            omega
          obtain ⟨pf, hpf, hacc, hfinal⟩ :=
            ih (rest ++ (qsaAll sk ++ k)) (acc ++ [rid])
              (Elem.mk i tg d rid true ss sk k :: pop) hwq hinv'
          refine ⟨pf, ?_, ?_, ?_⟩
          · rintro x (hx | hx)
            · rcases List.mem_cons.mp hx with rfl | hx
              · exact hpf _ (Or.inr (List.mem_cons_self _ _))
              · exact hpf _ (Or.inl (List.mem_append.mpr (Or.inl hx)))
            · exact hpf _ (Or.inr (List.mem_cons.mpr (Or.inr hx)))
          · intro r hr
            rw [hstep]
            exact hacc r (List.mem_append.mpr (Or.inl hr))
          · rw [hstep]
            exact hfinal

theorem filterMap_nodup_inj {α β : Type} (f : α → Option β) :
    ∀ (l : List α), (l.filterMap f).Nodup →
    ∀ x ∈ l, ∀ y ∈ l, ∀ b, f x = some b → f y = some b → x = y := by
  intro l
  induction l with
  | nil => intro _ x hx; simp at hx
  | cons a r ih =>
    intro hnd x hx y hy b hfx hfy
    rw [List.filterMap_cons] at hnd
    cases hfa : f a with
    | none =>
      rw [hfa] at hnd
      rcases List.mem_cons.mp hx with rfl | hx
      · rw [hfa] at hfx; exact absurd hfx (by simp)
      · rcases List.mem_cons.mp hy with rfl | hy
        · rw [hfa] at hfy; exact absurd hfy (by simp)
        · exact ih hnd x hx y hy b hfx hfy
    | some c =>
      rw [hfa] at hnd
      have hnd' := List.nodup_cons.mp hnd
      rcases List.mem_cons.mp hx with hxa | hxr
      · rcases List.mem_cons.mp hy with hya | hyr
        · rw [hxa, hya]
        · exfalso
          rw [hxa, hfa] at hfx
          have hbc : c = b := by injection hfx
          subst hbc
          exact hnd'.1 (List.mem_filterMap.mpr ⟨y, hyr, hfy⟩)
      · rcases List.mem_cons.mp hy with hya | hyr
        · exfalso
          rw [hya, hfa] at hfy
          have hbc : c = b := by injection hfy
          subst hbc
          exact hnd'.1 (List.mem_filterMap.mpr ⟨x, hxr, hfx⟩)
        · exact ih hnd'.2 x hxr y hyr b hfx hfy

theorem mem_allRootRidsL : ∀ (l : List Elem) (r : ℕ), r ∈ allRootRidsL l →
    ∃ z ∈ l, r ∈ allRootRids z := by
  intro l
  induction l with
  | nil => intro r hr; simp [allRootRidsL] at hr
  | cons e rest ih =>
    intro r hr
    simp only [allRootRidsL, List.mem_append] at hr
    rcases hr with hr | hr
    · exact ⟨e, List.mem_cons_self _ _, hr⟩
    · obtain ⟨z, hz, hrz⟩ := ih r hr
      exact ⟨z, List.mem_cons.mpr (Or.inr hz), hrz⟩

theorem bfs_complete_aux (g : Elem) (hwf : ridsNodup g) (accF : List ℕ) (pf : List Elem)
    (hinv : BfsInv g [] accF pf) :
    ∀ (n : ℕ) (x : Elem), wtE x ≤ n → x ∈ pf → ∀ r ∈ allRootRids x, r ∈ accF := by
  obtain ⟨_, inv2, inv3, inv4, inv5⟩ := hinv
  intro n
  induction n with
  | zero =>
    intro x hx
    exfalso
    have := wtE_pos x
    omega
  | succ n ih =>
    intro x hwx hxpf r hr
    obtain ⟨i, tg, d, rid, hs, ss, sk, k⟩ := x
    simp only [allRootRids, List.mem_append] at hr
    simp only [wtE] at hwx
    rcases hr with hr | hr
    · cases hhs : hs with
      | false =>
        rw [hhs] at hr
        simp at hr
      | true =>
        rw [hhs] at hr
        have hride : rid ∈ accF :=
          inv4 _ hxpf (by simpa [Elem.hasShadow] using hhs)
        rcases List.mem_cons.mp hr with rfl | hr
        · exact hride
        · obtain ⟨x', hx'pf, hx'tree, hx'hs, hx'rid, hx'cov⟩ := inv5 rid hride
          have hxtree : Elem.mk i tg d rid hs ss sk k ∈ treeElems g :=
            inv2 _ hxpf
          have hxeq : x' = Elem.mk i tg d rid hs ss sk k := by
            have hwf' : ((treeElems g).filterMap
                (fun x => if x.hasShadow then some x.rid else none)).Nodup := hwf
            refine filterMap_nodup_inj _ (treeElems g) hwf' x' hx'tree _ hxtree rid ?_ ?_
            · simp [hx'hs, hx'rid]
            · simp [Elem.hasShadow, Elem.rid, hhs]
          subst hxeq
          have hcov : ∀ y ∈ qsaAll sk, y ∈ pf := by
            intro y hy
            rcases hx'cov y (by simpa [Elem.shadowKids] using hy) with hy' | hy'
            · simp at hy'
            · exact hy'
          obtain ⟨z, hz, hrz⟩ := mem_allRootRidsL sk r hr
          have hzpf : z ∈ pf := hcov z (mem_qsaAll_self sk z hz)
          have hwz : wtE z ≤ n := by
            have h1 := wtE_le_of_mem sk z hz
            have h2 := wtL_le_wtQ sk
            omega
          exact ih z hwz hzpf r hrz
    · obtain ⟨z, hz, hrz⟩ := mem_allRootRidsL k r hr
      have hzpf : z ∈ pf := by
        rcases inv3 _ hxpf z (by simpa [Elem.kids] using hz) with hy' | hy'
        · simp at hy'
        · exact hy'
      have hwz : wtE z ≤ n := by
        have h1 := wtE_le_of_mem k z hz
        omega
      exact ih z hwz hzpf r hrz

theorem getAllShadowRoots_complete (g : Elem) (hwf : ridsNodup g) :
    ∀ r ∈ allRootRids g, r ∈ getAllShadowRoots g := by
  have hinv0 : BfsInv g [g] [] [] := by
    refine ⟨?_, ?_, ?_, ?_, ?_⟩
    · intro x hx
      have : x = g := by simpa using hx
      subst this
      exact treeElems_self x
    · intro x hx; simp at hx
    · intro x hx; simp at hx
    · intro x hx; simp at hx
    · intro r hr; simp at hr
  have hwt : wtL [g] ≤ wtE g := by
    simp only [wtL]
    omega
  obtain ⟨pf, hpf, hacc, hfinal⟩ := bfsLoop_inv g (wtE g) [g] [] [] hwt hinv0
  intro r hr
  have hgpf : g ∈ pf := hpf g (Or.inl (List.mem_cons_self _ _))
  exact bfs_complete_aux g hwf (bfsLoop (wtE g) [g] []) pf hfinal (wtE g) g le_rfl hgpf r hr


/-! ### C3: style synthesis lemmas -/

theorem strData_append (a b : String) : (a ++ b).data = a.data ++ b.data := by
  cases a
  cases b
  rfl

theorem strNe_append_right (a b : String) (h : b ≠ "") : a ++ b ≠ "" := by
  intro he
  apply h
  have hd : (a ++ b).data = [] := by rw [he]
  rw [strData_append] at hd
  have hb : b.data = [] := (List.append_eq_nil.mp hd).2
  cases b with
  | mk db =>
    simp at hb
    rw [hb]

theorem containsSub_append_right (n : List Char) :
    ∀ (a b : List Char), containsSub n b = true → containsSub n (a ++ b) = true := by
  intro a
  induction a with
  | nil => intro b h; simpa using h
  | cons c r ih =>
    intro b h
    simp only [List.cons_append, containsSub, Bool.or_eq_true]
    exact Or.inr (ih b h)

theorem strContains_append_right (a b n : String) (h : strContains b n = true) :
    strContains (a ++ b) n = true := by
  unfold strContains at h ⊢
  rw [strData_append]
  exact containsSub_append_right n.data a.data b.data h

theorem buildCssRules_rtl (t : StyleTuple) (hdir : t.direction = "rtl") :
    strContains (buildCssRules false t) "direction: rtl !important;" = true ∧
    buildCssRules false t ≠ "" := by
  unfold buildCssRules
  rw [hdir]
  constructor
  · apply strContains_append_right
    rw [if_pos (Or.inl rfl)]
    decide
  · apply strNe_append_right
    rw [if_pos (Or.inl rfl)]
    decide

theorem setFirstContent_exists :
    ∀ (l : List (String × String)) (sid css : String),
    l.any (fun p => p.1 == sid) = true →
    ∃ p ∈ setFirstContent l sid css, p.2 = css := by
  intro l
  induction l with
  | nil => intro sid css h; simp at h
  | cons q rest ih =>
    intro sid css h
    by_cases hq : q.1 = sid
    · have hrw : setFirstContent (q :: rest) sid css = (q.1, css) :: rest := by
        simp [setFirstContent, hq]
      rw [hrw]
      exact ⟨(q.1, css), List.mem_cons_self _ _, rfl⟩
    · have h' : rest.any (fun p => p.1 == sid) = true := by
        simp only [List.any_cons, Bool.or_eq_true] at h
        rcases h with h | h
        · exact absurd (by simpa using h) hq
        · exact h
      have hrw : setFirstContent (q :: rest) sid css = q :: setFirstContent rest sid css := by
        simp [setFirstContent, hq]
      rw [hrw]
      obtain ⟨p, hp, hpc⟩ := ih sid css h'
      exact ⟨p, List.mem_cons.mpr (Or.inr hp), hpc⟩

theorem updateStyles_exists (l : List (String × String)) (sid css : String)
    (hne : css ≠ "") : ∃ p ∈ updateStyles l sid css, p.2 = css := by
  unfold updateStyles
  rw [if_pos hne]
  by_cases h : l.any (fun p => p.1 == sid) = true
  · rw [if_pos h]
    exact setFirstContent_exists l sid css h
  · rw [if_neg h]
    exact ⟨(sid, css), List.mem_cons_self _ _, rfl⟩

theorem mem_setApply (ids : List ℕ) (css suffix : String) (dir : Option String) :
    ∀ (l : List Elem) (y : Elem),
    y ∈ setHostDirsL ids dir (applyShadowInL ids css suffix l) →
    ∃ z ∈ l, y = setHostDirs ids dir (applyShadowIn ids css suffix z) := by
  intro l
  induction l with
  | nil =>
    intro y h
    simp [applyShadowInL, setHostDirsL] at h
  | cons e rest ih =>
    intro y h
    rw [show applyShadowInL ids css suffix (e :: rest)
        = applyShadowIn ids css suffix e :: applyShadowInL ids css suffix rest from by
      simp [applyShadowInL]] at h
    rw [show setHostDirsL ids dir
          (applyShadowIn ids css suffix e :: applyShadowInL ids css suffix rest)
        = setHostDirs ids dir (applyShadowIn ids css suffix e)
          :: setHostDirsL ids dir (applyShadowInL ids css suffix rest) from by
      simp [setHostDirsL]] at h
    rcases List.mem_cons.mp h with rfl | h
    · exact ⟨e, List.mem_cons_self _ _, rfl⟩
    · obtain ⟨z, hz, hy⟩ := ih y h
      exact ⟨z, List.mem_cons.mpr (Or.inr hz), hy⟩

theorem shadowsDirOkL_of (needle dir : String) :
    ∀ l : List Elem, (∀ z ∈ l, shadowsDirOk needle dir z = true) →
    shadowsDirOkL needle dir l = true := by
  intro l
  induction l with
  | nil => intro _; simp [shadowsDirOkL]
  | cons e rest ih =>
    intro h
    rw [show shadowsDirOkL needle dir (e :: rest)
        = (shadowsDirOk needle dir e && shadowsDirOkL needle dir rest) from by
      simp [shadowsDirOkL]]
    rw [h e (List.mem_cons_self _ _), ih (fun z hz => h z (List.mem_cons.mpr (Or.inr hz)))]
    rfl

theorem mem_allRootRidsL_of : ∀ (l : List Elem) (z : Elem), z ∈ l →
    ∀ r ∈ allRootRids z, r ∈ allRootRidsL l := by
  intro l
  induction l with
  | nil => intro z hz; simp at hz
  | cons e rest ih =>
    intro z hz r hr
    rw [show allRootRidsL (e :: rest) = allRootRids e ++ allRootRidsL rest from by
      simp [allRootRidsL]]
    rcases List.mem_cons.mp hz with rfl | hz
    · exact List.mem_append.mpr (Or.inl hr)
    · exact List.mem_append.mpr (Or.inr (ih z hz r hr))


theorem transform_ok (ids : List ℕ) (css suffix needle dir : String)
    (hcss : strContains css needle = true) (hne : css ≠ "") :
    ∀ (n : ℕ) (e : Elem), wtE e ≤ n → (∀ r ∈ allRootRids e, r ∈ ids) →
    shadowsDirOk needle dir
      (setHostDirs ids (some dir) (applyShadowIn ids css suffix e)) = true := by
  intro n
  induction n with
  | zero =>
    intro e h
    exfalso
    have := wtE_pos e
    omega
  | succ n ih =>
    intro e hw hall
    obtain ⟨i, tg, d, rid, hs, ss, sk, k⟩ := e
    simp only [wtE] at hw
    rw [show applyShadowIn ids css suffix (Elem.mk i tg d rid hs ss sk k)
        = Elem.mk i tg d rid hs
            (if hs ∧ rid ∈ ids then updateStyles ss (shadowStyleId i tg suffix) css else ss)
            (applyShadowInL ids css suffix sk) (applyShadowInL ids css suffix k) from by
      simp [applyShadowIn]]
    rw [show setHostDirs ids (some dir)
          (Elem.mk i tg d rid hs
            (if hs ∧ rid ∈ ids then updateStyles ss (shadowStyleId i tg suffix) css else ss)
            (applyShadowInL ids css suffix sk) (applyShadowInL ids css suffix k))
        = Elem.mk i tg (if hs ∧ rid ∈ ids then some dir else d) rid hs
            (if hs ∧ rid ∈ ids then updateStyles ss (shadowStyleId i tg suffix) css else ss)
            (setHostDirsL ids (some dir) (applyShadowInL ids css suffix sk))
            (setHostDirsL ids (some dir) (applyShadowInL ids css suffix k)) from by
      simp [setHostDirs]]
    have hkpart : shadowsDirOkL needle dir
        (setHostDirsL ids (some dir) (applyShadowInL ids css suffix k)) = true := by
      apply shadowsDirOkL_of
      intro y hy
      obtain ⟨z, hz, rfl⟩ := mem_setApply ids css suffix (some dir) k y hy
      have hwz : wtE z ≤ n := by
        have := wtE_le_of_mem k z hz
        omega
      apply ih z hwz
      intro r hr
      apply hall
      simp only [allRootRids, List.mem_append]
      exact Or.inr (mem_allRootRidsL_of k z hz r hr)
    cases hs with
    | false =>
      have hcf : ¬ (false = true ∧ rid ∈ ids) := by simp
      rw [if_neg hcf, if_neg hcf]
      rw [show shadowsDirOk needle dir
            (Elem.mk i tg d rid false ss
              (setHostDirsL ids (some dir) (applyShadowInL ids css suffix sk))
              (setHostDirsL ids (some dir) (applyShadowInL ids css suffix k)))
          = shadowsDirOkL needle dir
              (setHostDirsL ids (some dir) (applyShadowInL ids css suffix k)) from by
        simp [shadowsDirOk]]
      exact hkpart
    | true =>
      have hrid : rid ∈ ids := by
        apply hall
        simp only [allRootRids, List.mem_append]
        exact Or.inl (List.mem_cons_self _ _)
      have hcond : (true = true ∧ rid ∈ ids) := ⟨rfl, hrid⟩
      rw [if_pos hcond, if_pos hcond]
      have hskpart : shadowsDirOkL needle dir
          (setHostDirsL ids (some dir) (applyShadowInL ids css suffix sk)) = true := by
        apply shadowsDirOkL_of
        intro y hy
        obtain ⟨z, hz, rfl⟩ := mem_setApply ids css suffix (some dir) sk y hy
        have hwz : wtE z ≤ n := by
          have h1 := wtE_le_of_mem sk z hz
          have h2 := wtL_le_wtQ sk
          omega
        apply ih z hwz
        intro r hr
        apply hall
        simp only [allRootRids, List.mem_append]
        exact Or.inl (List.mem_cons.mpr (Or.inr (mem_allRootRidsL_of sk z hz r hr)))
      have hany : (updateStyles ss (shadowStyleId i tg suffix) css).any
          (fun p => strContains p.2 needle) = true := by
        obtain ⟨p, hp, hpc⟩ := updateStyles_exists ss (shadowStyleId i tg suffix) css hne
        exact List.any_eq_true.mpr ⟨p, hp, by rw [hpc]; exact hcss⟩
      rw [show shadowsDirOk needle dir
            (Elem.mk i tg (some dir) rid true
              (updateStyles ss (shadowStyleId i tg suffix) css)
              (setHostDirsL ids (some dir) (applyShadowInL ids css suffix sk))
              (setHostDirsL ids (some dir) (applyShadowInL ids css suffix k)))
          = (((some dir == some dir)
               && (updateStyles ss (shadowStyleId i tg suffix) css).any
                    (fun p => strContains p.2 needle)
               && shadowsDirOkL needle dir
                    (setHostDirsL ids (some dir) (applyShadowInL ids css suffix sk)))
             && shadowsDirOkL needle dir
                  (setHostDirsL ids (some dir) (applyShadowInL ids css suffix k))) from by
        simp [shadowsDirOk]]
      rw [hany, hskpart, hkpart]
      simp


/-- C3: on any page (well-formed: shadow-root identities distinct, as object
identities are), applying a tuple with `direction = "rtl"` sets `dir="rtl"`
on the document element and on every reachable shadow host — including
hosts nested inside other shadow roots — and injects into every reachable
shadow root a scoped style element whose rules contain the
`direction: rtl !important;` declaration; the breadth-first traversal
collects every reachable shadow root. -/
theorem c3_rtl_coverage (doc : PageDoc) (t : StyleTuple) (suffix : String)
    (hdir : t.direction = "rtl") (hwf : ridsNodup doc.root) :
    (applyPageStyles t suffix doc).htmlDir = some "rtl" ∧
    (∀ r ∈ allRootRids doc.root, r ∈ getAllShadowRoots doc.root) ∧
    shadowsDirOk "direction: rtl !important;" "rtl" (applyPageStyles t suffix doc).root
      = true := by
  have hcomp := getAllShadowRoots_complete doc.root hwf
  obtain ⟨hcontains, hne⟩ := buildCssRules_rtl t hdir
  refine ⟨?_, hcomp, ?_⟩
  · simp [applyPageStyles, hdir]
  · show shadowsDirOk "direction: rtl !important;" "rtl"
      (setHostDirs (getAllShadowRoots doc.root)
        (if t.direction ≠ "" then some t.direction else none)
        (applyShadowIn (getAllShadowRoots doc.root) (buildCssRules false t) suffix doc.root))
      = true
    rw [hdir]
    rw [if_pos (by decide : ("rtl" : String) ≠ "")]
    exact transform_ok (getAllShadowRoots doc.root) (buildCssRules false t) suffix
      "direction: rtl !important;" "rtl" hcontains hne (wtE doc.root) doc.root le_rfl hcomp

theorem c3_rtl_coverage_witness :
    ridsNodup nestedShadowDocSample.root ∧
    (applyPageStyles rtlOnlyTuple "zzzzzzz" nestedShadowDocSample).htmlDir = some "rtl" ∧
    shadowsDirOk "direction: rtl !important;" "rtl"
      (applyPageStyles rtlOnlyTuple "zzzzzzz" nestedShadowDocSample).root = true :=
  ⟨by decide,
   (c3_rtl_coverage nestedShadowDocSample rtlOnlyTuple "zzzzzzz" rfl (by decide)).1,
   (c3_rtl_coverage nestedShadowDocSample rtlOnlyTuple "zzzzzzz" rfl (by decide)).2.2⟩

